import Mathlib

/-!
Verification of the mkanban-tui persistence core.

This file gives a shallow embedding, in Lean, of the filesystem
persistence engine of the mkanban-tui repository: the slug generator
(pkg/slug), the atomic file writer (pkg/filesystem SafeWrite), the
front-matter codec (internal/infrastructure/serialization), the
entity/storage mappers (internal/infrastructure/persistence/mapper),
the Task entity (internal/domain/entity), and the board repository
with its save/load/cleanup/migration logic
(internal/infrastructure/persistence/filesystem/board_repository_impl.go).

Modelling conventions:
- Go strings are Lean Strings; byte slices holding text are Strings.
  String manipulation is implemented over the character list (String.data)
  so that every definition evaluates inside the kernel.
- time.Time values are Nat timestamps; every code path that calls
  time.Now() takes the current instant as an explicit argument.
- The external YAML library is abstracted: structured metadata files are
  stored in parsed form, and the front-matter codec is parameterised by
  the key/value-block parser/marshaller.
- Filesystem state is modelled per board directory as a tree of
  association lists keyed by directory/file name.
- Fallible Go functions returning (T, error) become Option T.
-/

set_option autoImplicit false

namespace MKanban

/-! ## Generic helpers: characters, lines, association-list directories -/
/-- Trim whitespace from both ends of a string (strings.TrimSpace). -/
def strTrim (s : String) : String :=
  String.mk (((s.data.dropWhile Char.isWhitespace).reverse.dropWhile
    Char.isWhitespace).reverse)

/-- Drop a single trailing carriage return from a line, as bufio.ScanLines
does. -/
def dropCRChars (l : List Char) : List Char :=
  match l.reverse with
  | '\r' :: rest => rest.reverse
  | _ => l

/-- Accumulate the current line (reversed) while walking the characters; a
newline emits the line, and a trailing newline emits no final empty line. -/
def scanLinesAux : List Char → List Char → List String
  | acc, [] => [String.mk (dropCRChars acc.reverse)]
  | acc, c :: cs =>
    if c = '\n' then
      String.mk (dropCRChars acc.reverse) ::
        (match cs with
         | [] => []
         | _ :: _ => scanLinesAux [] cs)
    else
      scanLinesAux (c :: acc) cs

/-- Split a character list into scanner lines: tokens separated by newline
characters, with no final empty token after a trailing newline. -/
def scanLines : List Char → List String
  | [] => []
  | cs => scanLinesAux [] cs

/-- Split a string into lines exactly as a bufio.Scanner with ScanLines does:
an empty input yields no lines, a trailing newline does not produce a final
empty line, and a trailing carriage return is stripped from each line. -/
def linesOf (s : String) : List String :=
  scanLines s.data

/-- Join lines with newline separators (strings.Join(lines, newline)). -/
def joinLines (ls : List String) : String :=
  String.mk (List.intercalate ['\n'] (ls.map String.data))

/-- Parse a nonempty all-digit character list as a natural number
(the behaviour of strconv-style parsing on canonical decimal input). -/
def digitsToNat? (l : List Char) : Option Nat :=
  if l ≠ [] ∧ l.all Char.isDigit then
    some (l.foldl (fun n c => n * 10 + (c.toNat - Char.toNat '0')) 0)
  else none

/-- Look up the first entry with the given name in a directory listing. -/
def entryLookup {α : Type} (k : String) : List (String × α) → Option α
  | [] => none
  | e :: es => if e.fst = k then some e.snd else entryLookup k es

/-- Replace the entry with the given name, or append it if absent.  Models
writing files into an existing or freshly created directory. -/
def entryPut {α : Type} (l : List (String × α)) (k : String) (v : α) : List (String × α) :=
  if l.any (fun e => e.fst = k) then
    l.map (fun e => if e.fst = k then (k, v) else e)
  else
    l ++ [(k, v)]
namespace Slug

/-! ## pkg/slug: Generate -/
/-- Character class of the regex [a-z0-9]. -/
def isAlnumLower (c : Char) : Bool :=
  (Char.toNat 'a' ≤ c.toNat && c.toNat ≤ Char.toNat 'z') ||
  (Char.toNat '0' ≤ c.toNat && c.toNat ≤ Char.toNat '9')

/-- Replace every maximal run of characters satisfying p by a single hyphen.
This is regexp.ReplaceAllString with pattern X+ and replacement "-" where X
is the class decided by p.  The flag records whether the previous character
was inside a run. -/
def squashRuns (p : Char → Bool) : Bool → List Char → List Char
  | _, [] => []
  | inRun, c :: cs =>
    if p c then
      (if inRun then [] else ['-']) ++ squashRuns p true cs
    else
      c :: squashRuns p false cs

/-- Trim hyphens from the start and end of a character list
(strings.Trim(s, "-")). -/
def trimHyphens (l : List Char) : List Char :=
  ((l.dropWhile (fun c => c = '-')).reverse.dropWhile (fun c => c = '-')).reverse

/-- Drop trailing hyphens (strings.TrimRight(s, "-")). -/
def trimRightHyphens (l : List Char) : List Char :=
  (l.reverse.dropWhile (fun c => c = '-')).reverse

/-- Embedding of slug.Generate from pkg/slug: lowercase, spaces to hyphens,
non-alphanumeric runs to single hyphens, hyphen runs collapsed, hyphens
trimmed, "untitled" when empty, capped at 50 characters with trailing
hyphens trimmed after truncation. -/
def generate (s : String) : String :=
  let l := s.data.map Char.toLower
  let l := l.map (fun c => if c = ' ' then '-' else c)
  let l := squashRuns (fun c => !(isAlnumLower c)) false l
  let l := squashRuns (fun c => c = '-') false l
  let l := trimHyphens l
  if l.isEmpty then "untitled"
  else if l.length > 50 then String.mk (trimRightHyphens (l.take 50))
  else String.mk l
end Slug
namespace Serialization

/-! ## internal/infrastructure/serialization: front matter -/
/-- Scalar or list value of a parsed key/value block.  Models the subset of
YAML values the storage schemas use (the accessors GetString, GetInt and
GetStringSlice only ever extract these shapes). -/
inductive FmValue where
  | str (s : String)
  | int (n : Int)
  | list (xs : List String)
deriving DecidableEq

/-- A parsed key/value block (map[string]interface with insertion order). -/
abbrev Frontmatter := List (String × FmValue)

/-- FrontmatterDocument from frontmatter.go. -/
structure FrontmatterDocument where
  frontmatter : Frontmatter
  content : String
deriving DecidableEq

/-- GetString from frontmatter.go: empty string on missing key or
non-string value. -/
def FrontmatterDocument.getString (d : FrontmatterDocument) (k : String) : String :=
  match entryLookup k d.frontmatter with
  | some (.str s) => s
  | _ => ""

/-- GetInt from frontmatter.go: zero on missing key or non-integer value. -/
def FrontmatterDocument.getInt (d : FrontmatterDocument) (k : String) : Int :=
  match entryLookup k d.frontmatter with
  | some (.int n) => n
  | _ => 0

/-- GetStringSlice from frontmatter.go: empty list on missing key or
non-list value. -/
def FrontmatterDocument.getStringSlice (d : FrontmatterDocument) (k : String) : List String :=
  match entryLookup k d.frontmatter with
  | some (.list xs) => xs
  | _ => []

/-- The fixed delimiter line of a front-matter document. -/
def yamlDelimiter : String := "---"

/-- Whether the input begins with the front-matter delimiter line (the first
scanner line, trimmed of whitespace, equals the delimiter). -/
def beginsWithDelimiter (data : String) : Bool :=
  match linesOf data with
  | [] => false
  | l :: _ => strTrim l = yamlDelimiter

/-- Embedding of ParseFrontmatter from frontmatter.go, parameterised by the
external YAML parser used for the key/value block.  Returns none exactly
where the Go function returns an error. -/
def parseFrontmatter (yparse : String → Option Frontmatter) (data : String) :
    Option FrontmatterDocument :=
  match linesOf data with
  | [] => some ⟨[], ""⟩
  | firstLine :: rest =>
    if strTrim firstLine ≠ yamlDelimiter then
      some ⟨[], data⟩
    else
      let fmLines := rest.takeWhile (fun l => strTrim l ≠ yamlDelimiter)
      let after := rest.dropWhile (fun l => strTrim l ≠ yamlDelimiter)
      let contentLines := match after with
        | [] => []
        | _ :: tl => tl
      let fmRes : Option Frontmatter :=
        if fmLines.isEmpty then some []
        else yparse (joinLines fmLines)
      match fmRes with
      | none => none
      | some fm => some ⟨fm, strTrim (joinLines contentLines)⟩

/-- Embedding of SerializeFrontmatter from frontmatter.go, parameterised by
the external YAML marshaller: delimiter line, key/value block (skipped when
empty), delimiter line, then the body followed by a newline when non-empty. -/
def serializeFrontmatter (ymarshal : Frontmatter → String)
    (fm : Frontmatter) (content : String) : String :=
  yamlDelimiter ++ "\n"
    ++ (if fm.isEmpty then "" else ymarshal fm)
    ++ yamlDelimiter ++ "\n"
    ++ (if content = "" then "" else content ++ "\n")

/-- Split a line at the first key/value separator: k colon space v, where the
key contains no colon. -/
def splitKeyValue (l : List Char) : Option (String × String) :=
  let k := l.takeWhile (fun c => c ≠ ':')
  match l.dropWhile (fun c => c ≠ ':') with
  | ':' :: ' ' :: v => some (String.mk k, String.mk v)
  | _ => none

/-- Modelled from the spec: a minimal scalar key/value line codec standing in
for the external YAML library when legacy front-matter blocks are parsed
(key colon space value per line; a value that reads as a number becomes an
integer, anything else a string).  The repository only relies on the lookup
accessors over the parsed block, which this model supports. -/
def yamlLineParse (s : String) : Option Frontmatter :=
  (linesOf s).mapM (fun l =>
    match splitKeyValue l.data with
    | some (k, v) =>
      if k = "" then none
      else
        match digitsToNat? v.data with
        | some n => some (k, FmValue.int (Int.ofNat n))
        | none => some (k, FmValue.str v)
    | none => none)
end Serialization
namespace Fsys

/-! ## pkg/filesystem: SafeWrite

The flat filesystem visible to SafeWrite is a map from paths (segment
lists, as produced by filepath.Join) to file contents.  os.CreateTemp is
modelled as a deterministic generator of a fresh name matching the
".tmp-" pattern in the requested directory; freshness is proved below.
Failure injection: the failAt argument names the step whose underlying
system call fails, none meaning every call succeeds. -/
abbrev FsPath := List String

abbrev Fs := List (FsPath × String)

/-- Content of the file at a path, if present. -/
def fsGet : Fs → FsPath → Option String
  | [], _ => none
  | e :: es, p => if e.fst = p then some e.snd else fsGet es p

/-- Remove the file at a path. -/
def fsRemove : Fs → FsPath → Fs
  | [], _ => []
  | e :: es, p => if e.fst = p then fsRemove es p else e :: fsRemove es p

/-- Write (create or overwrite) the file at a path. -/
def fsSet (fs : Fs) (p : FsPath) (v : String) : Fs :=
  (p, v) :: fsRemove fs p

/-- Length of the final segment of a path. -/
def lastSegLen (p : FsPath) : Nat :=
  match p.reverse with
  | s :: _ => s.data.length
  | [] => 0

/-- Upper bound on the final-segment length over all files present. -/
def maxLastLen (fs : Fs) : Nat :=
  fs.foldr (fun e m => max (lastSegLen e.fst) m) 0

/-- A temp-file name matching the ".tmp-" pattern, longer in its final
segment than any existing file name and therefore fresh. -/
def tmpName (fs : Fs) : String :=
  String.mk ('.' :: 't' :: 'm' :: 'p' :: '-' :: List.replicate (maxLastLen fs + 1) 'x')

/-- The temp file is created in the same directory as the target. -/
def tmpPathFor (fs : Fs) (target : FsPath) : FsPath :=
  target.dropLast ++ [tmpName fs]

/-- The fallible steps of SafeWrite, in execution order. -/
inductive SWStep where
  | mkdir | create | write | sync | close | chmod | rename
deriving DecidableEq

/-- Outcome of SafeWrite: error flag plus the resulting filesystem. -/
structure SWResult where
  ok : Bool
  fs : Fs
deriving DecidableEq

/-- Embedding of SafeWrite from pkg/filesystem: ensure the directory,
create a uniquely named temp file next to the target, write, sync, close,
chmod, then rename it onto the target; the deferred cleanup removes the
temp file whenever an error is returned. -/
def safeWrite (failAt : Option SWStep) (fs : Fs) (path : FsPath) (data : String) :
    SWResult :=
  if failAt = some SWStep.mkdir then ⟨false, fs⟩
  else
    let tmp := tmpPathFor fs path
    if failAt = some SWStep.create then ⟨false, fs⟩
    else
      let fs1 := fsSet fs tmp ""
      if failAt = some SWStep.write then ⟨false, fsRemove fs1 tmp⟩
      else
        let fs2 := fsSet fs1 tmp data
        if failAt = some SWStep.sync then ⟨false, fsRemove fs2 tmp⟩
        else if failAt = some SWStep.close then ⟨false, fsRemove fs2 tmp⟩
        else if failAt = some SWStep.chmod then ⟨false, fsRemove fs2 tmp⟩
        else if failAt = some SWStep.rename then ⟨false, fsRemove fs2 tmp⟩
        else ⟨true, fsSet (fsRemove fs2 tmp) path data⟩
end Fsys
namespace VO

/-! ## internal/domain/valueobject

The valueobject package is not present under the sources; only its callers
are.  Its types are modelled from the spec. -/
/-- Modelled from the spec: task priority enumerated as
none/low/medium/high/critical.  The valueobject package is missing from
the sources; only the valid values are representable, so the IsValid
checks of the entity layer hold by construction. -/
inductive Priority where
  | noPriority | low | medium | high | critical
deriving DecidableEq

/-- String form of a priority (Priority.String). -/
def Priority.toStr : Priority → String
  | .noPriority => "none"
  | .low => "low"
  | .medium => "medium"
  | .high => "high"
  | .critical => "critical"

/-- Modelled from the spec: ParsePriority, accepting exactly the
enumerated priority names. -/
def parsePriority (s : String) : Option Priority :=
  if s = "none" then some .noPriority
  else if s = "low" then some .low
  else if s = "medium" then some .medium
  else if s = "high" then some .high
  else if s = "critical" then some .critical
  else none

/-- Modelled from the spec: task status enumerated as
todo/in-progress/done. -/
inductive Status where
  | todo | inProgress | done
deriving DecidableEq

/-- String form of a status (Status.String). -/
def Status.toStr : Status → String
  | .todo => "todo"
  | .inProgress => "in-progress"
  | .done => "done"

/-- Modelled from the spec: ParseStatus, accepting exactly the enumerated
status names. -/
def parseStatus (s : String) : Option Status :=
  if s = "todo" then some .todo
  else if s = "in-progress" then some .inProgress
  else if s = "done" then some .done
  else none

/-- Modelled from the spec: a task identifier combining a board-scoped
prefix, a monotonically increasing number, and a title-derived slug. -/
structure TaskID where
  pfx : String
  num : Nat
  slugPart : String
deriving DecidableEq

/-- Digits of a natural number, most significant first. -/
def natDigits (n : Nat) : List Char :=
  (Nat.toDigits 10 n)

/-- Decimal string of a natural number, kernel-computable. -/
def natToStr (n : Nat) : String :=
  String.mk (natDigits n)

/-- The canonical short identifier: prefix and number only (ShortID). -/
def TaskID.shortID (t : TaskID) : String :=
  t.pfx ++ "-" ++ natToStr t.num

/-- The full identifier used as the on-disk folder name:
prefix, number and slug (String). -/
def TaskID.fullStr (t : TaskID) : String :=
  t.pfx ++ "-" ++ natToStr t.num ++ "-" ++ t.slugPart

/-- Accumulator walk splitting a character list at every hyphen. -/
def splitOnHyphenAux : List Char → List Char → List (List Char)
  | [], acc => [acc.reverse]
  | c :: rest, acc =>
    if c = '-' then acc.reverse :: splitOnHyphenAux rest []
    else splitOnHyphenAux rest (c :: acc)

/-- Split a character list at every hyphen. -/
def splitOnHyphen (cs : List Char) : List (List Char) :=
  splitOnHyphenAux cs []

/-- Join character lists with hyphen separators. -/
def joinHyphen (ls : List (List Char)) : List Char :=
  List.intercalate ['-'] ls

/-- Modelled from the spec: ParseTaskID, recognising folder names of the
form PREFIX-NUMBER-slug: a nonempty prefix, a decimal number, and a
nonempty slug remainder (which may itself contain hyphens). -/
def parseTaskID (name : String) : Option TaskID :=
  match splitOnHyphen name.data with
  | p :: n :: rest =>
    if p = [] ∨ rest = [] then none
    else
      match digitsToNat? n with
      | some k =>
        if (joinHyphen rest) = [] then none
        else some ⟨String.mk p, k, String.mk (joinHyphen rest)⟩
      | none => none
  | _ => none
end VO
namespace Entity

/-! ## internal/domain/entity: Task -/
/-- The Task entity from internal/domain/entity/task.go (timestamps as
Nat; the open metadata map of the newer entity revision is not touched by
any code path under verification and is omitted). -/
structure Task where
  id : VO.TaskID
  title : String
  description : String
  priority : VO.Priority
  status : VO.Status
  tags : List String
  createdAt : Nat
  modifiedAt : Nat
  dueDate : Option Nat
  completedDate : Option Nat
deriving DecidableEq

/-- NewTask from task.go: rejects an empty title; priority and status
validity holds by construction of the modelled enums; stamps creation and
modification with the current instant and leaves dates unset. -/
def newTask (id : VO.TaskID) (title description : String)
    (priority : VO.Priority) (status : VO.Status) (now : Nat) : Option Task :=
  if title = "" then none
  else some
    { id := id, title := title, description := description,
      priority := priority, status := status, tags := [],
      createdAt := now, modifiedAt := now,
      dueDate := none, completedDate := none }

/-- UpdateStatus from task.go: sets the status, re-stamps modification,
and sets the completed date the first time the status is updated to done
while the completed date is unset. -/
def Task.updateStatus (t : Task) (s : VO.Status) (now : Nat) : Task :=
  let t1 := { t with status := s, modifiedAt := now }
  if s = VO.Status.done ∧ t1.completedDate = none then
    { t1 with completedDate := some now }
  else t1

/-- MarkAsCompleted from task.go: update status to done, then set the
completed date if still unset. -/
def Task.markAsCompleted (t : Task) (now : Nat) : Task :=
  let t1 := t.updateStatus VO.Status.done now
  if t1.completedDate = none then { t1 with completedDate := some now }
  else t1

/-- SetDueDate from task.go: rejects a due date in the past. -/
def Task.setDueDate (t : Task) (d now : Nat) : Option Task :=
  if d < now then none
  else some { t with dueDate := some d, modifiedAt := now }

/-- AddTag from task.go: appends the tag unless already present. -/
def Task.addTag (t : Task) (tag : String) (now : Nat) : Task :=
  if t.tags.contains tag then t
  else { t with tags := t.tags ++ [tag], modifiedAt := now }
end Entity
namespace Mapper

/-! ## internal/infrastructure/persistence/mapper: task mapper -/
/-- Modelled stand-in for Go RFC3339 time formatting: an injective,
kernel-computable string encoding of the timestamp whose parse inverts it,
which are the two properties of the library pair the mapper relies on. -/
def formatRFC3339 (n : Nat) : String :=
  String.mk ('T' :: List.replicate n 'I')

/-- Stand-in for Go time.Parse with the RFC3339 layout (inverse of
formatRFC3339, failing on anything else). -/
def parseRFC3339 (s : String) : Option Nat :=
  match s.data with
  | 'T' :: rest => if rest.all (fun c => c = 'I') then some rest.length else none
  | _ => none

/-- TaskToStorage from task_mapper.go: project the task into the metadata
key/value block (short id, title, formatted created/modified, priority and
status strings, optional due and completed dates, tags when nonempty) and
return the description as the separate content. -/
def taskToStorage (t : Entity.Task) : Serialization.Frontmatter × String :=
  let fm : Serialization.Frontmatter :=
    [("id", Serialization.FmValue.str t.id.shortID),
     ("title", Serialization.FmValue.str t.title),
     ("created", Serialization.FmValue.str (formatRFC3339 t.createdAt)),
     ("modified", Serialization.FmValue.str (formatRFC3339 t.modifiedAt)),
     ("priority", Serialization.FmValue.str t.priority.toStr),
     ("status", Serialization.FmValue.str t.status.toStr)]
  let fm := fm ++ (match t.dueDate with
    | some d => [("due_date", Serialization.FmValue.str (formatRFC3339 d))]
    | none => [])
  let fm := fm ++ (match t.completedDate with
    | some d => [("completed_date", Serialization.FmValue.str (formatRFC3339 d))]
    | none => [])
  let fm := fm ++ (if t.tags.isEmpty then ([] : Serialization.Frontmatter)
    else [("tags", Serialization.FmValue.list t.tags)])
  (fm, t.description)

/-- Fold AddTag over a tag list, as the tag-restoring loop does. -/
def addTags (t : Entity.Task) (tags : List String) (now : Nat) : Entity.Task :=
  tags.foldl (fun acc tag => acc.addTag tag now) t

/-- TaskFromStorage from task_mapper.go: reject a short-id mismatch with
the authoritative folder-derived identifier, require a title, default and
parse priority and status, build the task through NewTask (which stamps
the current instant), then restore the due date when parseable and not in
the past (errors ignored) and re-add the stored tags.  The created,
modified and completed-date keys are never read back. -/
def taskFromStorage (doc : Serialization.FrontmatterDocument)
    (taskID : VO.TaskID) (now : Nat) : Option Entity.Task :=
  let shortID := doc.getString "id"
  if shortID ≠ "" ∧ shortID ≠ taskID.shortID then none
  else
    let title := doc.getString "title"
    if title = "" then none
    else
      let priorityStr := doc.getString "priority"
      let priorityStr := if priorityStr = "" then "none" else priorityStr
      match VO.parsePriority priorityStr with
      | none => none
      | some priority =>
        let statusStr := doc.getString "status"
        let statusStr := if statusStr = "" then "todo" else statusStr
        match VO.parseStatus statusStr with
        | none => none
        | some status =>
          match Entity.newTask taskID title doc.content priority status now with
          | none => none
          | some task =>
            let task1 :=
              let dueDateStr := doc.getString "due_date"
              if dueDateStr ≠ "" then
                match parseRFC3339 dueDateStr with
                | some d =>
                  match task.setDueDate d now with
                  | some t2 => t2
                  | none => task
                | none => task
              else task
            some (addTags task1 (doc.getStringSlice "tags") now)
end Mapper
namespace Entity

/-! ## Column and Board entities, split-pair codec, remaining mappers

The Column and Board entities and several current-generation mapper and
codec functions are called by the repository but are absent from the
sources; they are modelled from the spec. -/
/-- Modelled from the spec: the Column entity — display name (source of
truth for the directory key), description, order index, WIP limit (0 is
unlimited), optional display color, and an ordered list of owned tasks. -/
structure Column where
  displayName : String
  description : String
  order : Int
  wipLimit : Int
  color : Option String
  tasks : List Task
deriving DecidableEq

/-- Modelled from the spec: NewColumn — entity construction requires a
nonempty display name; remaining fields are taken as given and the task
list starts empty. -/
def newColumn (name description : String) (order wipLimit : Int)
    (color : Option String) : Option Column :=
  if name = "" then none
  else some { displayName := name, description := description, order := order,
              wipLimit := wipLimit, color := color, tasks := [] }

/-- Modelled from the spec: Column.AddTask — append preserving insertion
order. -/
def Column.addTask (c : Column) (t : Task) : Column :=
  { c with tasks := c.tasks ++ [t] }

/-- Modelled from the spec: the Board root aggregate — abstract identifier
(the directory name), display name, description, task-number prefix and
counter, timestamps, and the ordered set of owned columns. -/
structure Board where
  id : String
  name : String
  description : String
  pfx : String
  nextTaskNum : Nat
  createdAt : Nat
  modifiedAt : Nat
  columns : List Column
deriving DecidableEq

/-- Modelled from the spec: Board.AddColumn — append. -/
def Board.addColumn (b : Board) (c : Column) : Board :=
  { b with columns := b.columns ++ [c] }

/-- Stable insertion of a column into a list already sorted by order. -/
def insertByOrder (c : Column) : List Column → List Column
  | [] => [c]
  | d :: ds => if d.order ≤ c.order then d :: insertByOrder c ds else c :: d :: ds

/-- Stable insertion sort of columns by their order field. -/
def sortByOrder : List Column → List Column
  | [] => []
  | c :: cs => insertByOrder c (sortByOrder cs)

/-- Modelled from the spec: Board.ReorderColumns — re-sort the columns by
their order field after structural changes. -/
def Board.reorderColumns (b : Board) : Board :=
  { b with columns := sortByOrder b.columns }
end Entity
namespace Serialization

/-- Modelled from the spec: ParseMarkdownWithTitle — the first line when it
begins with the heading marker yields the title, and the remainder,
trimmed, the body; without a heading line the title is empty and the whole
text, trimmed, is the body. -/
def parseMarkdownWithTitle (s : String) : String × String :=
  match linesOf s with
  | [] => ("", "")
  | l :: rest =>
    match l.data with
    | '#' :: ' ' :: t => (String.mk t, strTrim (joinLines rest))
    | _ => ("", strTrim s)

/-- Modelled from the spec: SerializeMarkdownWithTitle — a heading line
from the title, a blank line, then the body. -/
def serializeMarkdownWithTitle (title body : String) : String :=
  "# " ++ title ++ "\n\n" ++ body
end Serialization
namespace Mapper

/-- Modelled from the spec: ColumnMetadataToStorage — the current-generation
column metadata block holds order, wip_limit and the color when present;
display name and description live in column.md.  (The ColumnStorage struct
serialises an empty description field as well.) -/
def columnMetadataToStorage (c : Entity.Column) : Serialization.Frontmatter :=
  [("description", Serialization.FmValue.str ""),
   ("order", Serialization.FmValue.int c.order),
   ("wip_limit", Serialization.FmValue.int c.wipLimit)]
  ++ (match c.color with
      | some col => [("color", Serialization.FmValue.str col)]
      | none => [])

/-- Modelled from the spec: ColumnFromStorage (current generation) — display
name and description come from the split content file, order, WIP limit and
color from the metadata block; an invalid color is dropped; built through
NewColumn with the directory key passed only as caller context. -/
def columnFromStorage (doc : Serialization.FrontmatterDocument)
    (folderName title content : String) : Option Entity.Column :=
  let colorStr := doc.getString "color"
  Entity.newColumn title content (doc.getInt "order") (doc.getInt "wip_limit")
    (if colorStr = "" then none else some colorStr)

/-- Modelled from the spec: ColumnFromLegacyStorage — display name from the
front matter falling back to the directory name when missing; description,
order, WIP limit and color from the front matter. -/
def columnFromLegacyStorage (doc : Serialization.FrontmatterDocument)
    (folderName : String) : Option Entity.Column :=
  let dn0 := doc.getString "display_name"
  let dn := if dn0 = "" then folderName else dn0
  let colorStr := doc.getString "color"
  Entity.newColumn dn (doc.getString "description") (doc.getInt "order")
    (doc.getInt "wip_limit") (if colorStr = "" then none else some colorStr)

/-- Modelled from the spec: BoardMetadataToStorage — id, prefix, formatted
created/modified, description and the task-number counter. -/
def boardMetadataToStorage (b : Entity.Board) : Serialization.Frontmatter :=
  [("id", Serialization.FmValue.str b.id),
   ("prefix", Serialization.FmValue.str b.pfx),
   ("created", Serialization.FmValue.str (formatRFC3339 b.createdAt)),
   ("modified", Serialization.FmValue.str (formatRFC3339 b.modifiedAt)),
   ("description", Serialization.FmValue.str b.description),
   ("next_task_num", Serialization.FmValue.int (Int.ofNat b.nextTaskNum))]

/-- Modelled from the spec: BoardContentToMarkdown — heading from the
display name, then the description. -/
def boardContentToMarkdown (b : Entity.Board) : String :=
  Serialization.serializeMarkdownWithTitle b.name b.description

/-- Modelled from the spec: ColumnContentToMarkdown — heading from the
display name, then the description. -/
def columnContentToMarkdown (c : Entity.Column) : String :=
  Serialization.serializeMarkdownWithTitle c.displayName c.description

/-- Modelled from the spec: BoardFromStorage (current generation) — the id
key is required; the name is the content title and the description the
content body; the counter is restored from the metadata. -/
def boardFromStorage (doc : Serialization.FrontmatterDocument)
    (title content : String) : Option Entity.Board :=
  let id := doc.getString "id"
  if id = "" then none
  else some { id := id, name := title, description := content,
              pfx := doc.getString "prefix",
              nextTaskNum := (doc.getInt "next_task_num").toNat,
              createdAt := 0, modifiedAt := 0, columns := [] }

/-- Modelled from the spec: BoardFromLegacyStorage — identity from the
directory name (authoritative), remaining fields from the front matter. -/
def boardFromLegacyStorage (doc : Serialization.FrontmatterDocument)
    (boardID : String) : Option Entity.Board :=
  some { id := boardID, name := boardID,
         description := doc.getString "description",
         pfx := doc.getString "prefix",
         nextTaskNum := (doc.getInt "next_task_num").toNat,
         createdAt := 0, modifiedAt := 0, columns := [] }
end Mapper
namespace Repo

/-! ## Board repository: on-disk tree model, Save and reconciliation -/
/-- On-disk state of one task directory: the metadata.yml file (absent, or
present and either parsed or unparseable — the outer Option is file
existence, the inner the result of ParseYaml) and the task.md file. -/
structure TaskDirFs where
  metadataYml : Option (Option Serialization.Frontmatter)
  taskMd : Option String
deriving DecidableEq

/-- On-disk state of one column directory: metadata.yml, column.md, the
tasks subdirectory when present, and task-shaped directories sitting
directly in the column root (legacy layout). -/
structure ColumnDirFs where
  metadataYml : Option (Option Serialization.Frontmatter)
  columnMd : Option String
  tasksDir : Option (List (String × TaskDirFs))
  rootTasks : List (String × TaskDirFs)
deriving DecidableEq

/-- On-disk state of one board directory: metadata.yml, board.md, the
columns subdirectory when present, and directories sitting directly in the
board root (legacy column layout). -/
structure BoardDirFs where
  metadataYml : Option (Option Serialization.Frontmatter)
  boardMd : Option String
  columnsDir : Option (List (String × ColumnDirFs))
  legacyCols : List (String × ColumnDirFs)
deriving DecidableEq

/-- The two files saveTask writes for a task. -/
def taskDirOf (t : Entity.Task) : TaskDirFs :=
  { metadataYml := some (some (Mapper.taskToStorage t).1),
    taskMd := some (Mapper.taskToStorage t).2 }

/-- The per-task loop of saveColumn: each saveTask ensures the directory
and writes metadata.yml and task.md. -/
def saveTasksFs (tasks : List Entity.Task)
    (entries : List (String × TaskDirFs)) : List (String × TaskDirFs) :=
  tasks.foldl (fun es t => entryPut es t.id.fullStr (taskDirOf t)) entries

/-- Writing the tasks of a column: the first saveTask's EnsureDir creates
the tasks subdirectory, so it comes into existence only when the column has
at least one task. -/
def saveColumnTasks (cd : ColumnDirFs) (tasks : List Entity.Task) : ColumnDirFs :=
  match tasks with
  | [] => cd
  | _ :: _ => { cd with tasksDir := some (saveTasksFs tasks (cd.tasksDir.getD [])) }

/-- cleanupOldTasks from board_repository_impl.go: nothing to clean when
the tasks subdirectory does not exist; otherwise remove every task
directory whose name is not among the current task identifiers. -/
def cleanupOldTasksFs (cd : ColumnDirFs) (col : Entity.Column) : ColumnDirFs :=
  match cd.tasksDir with
  | none => cd
  | some entries =>
    let keys := col.tasks.map (fun t => t.id.fullStr)
    { cd with tasksDir := some (entries.filter (fun e => keys.contains e.fst)) }

/-- The column-directory contents produced by saveColumn: starting from
the existing directory (or a fresh one), write metadata.yml and column.md,
save every task, then reconcile the tasks subdirectory. -/
def savedColumnDirOf (fs : BoardDirFs) (col : Entity.Column) : ColumnDirFs :=
  let cd0 := (entryLookup (Slug.generate col.displayName)
    (fs.columnsDir.getD [])).getD ⟨none, none, none, []⟩
  let cd1 := { cd0 with
    metadataYml := some (some (Mapper.columnMetadataToStorage col)),
    columnMd := some (Mapper.columnContentToMarkdown col) }
  cleanupOldTasksFs (saveColumnTasks cd1 col.tasks) col

/-- saveColumn from board_repository_impl.go: derive the normalized key
from the display name, ensure the directory (creating columns when
absent), write metadata.yml and column.md, save every task, then reconcile
the tasks subdirectory. -/
def saveColumnFs (fs : BoardDirFs) (col : Entity.Column) : BoardDirFs :=
  { fs with columnsDir := some (entryPut (fs.columnsDir.getD [])
      (Slug.generate col.displayName) (savedColumnDirOf fs col)) }

/-- loadTask, loadTaskFromColumnRoot and loadTaskLegacy from
board_repository_impl.go share this logic: read metadata.yml (missing or
unparseable is an error), read task.md, parse the folder name as the
authoritative TaskID, then map through TaskFromStorage. -/
def loadTaskFrom (td : TaskDirFs) (folderName : String) (now : Nat) :
    Option Entity.Task :=
  match td.metadataYml with
  | none => none
  | some none => none
  | some (some fm) =>
    match td.taskMd with
    | none => none
    | some md =>
      match VO.parseTaskID folderName with
      | none => none
      | some tid => Mapper.taskFromStorage ⟨fm, md⟩ tid now

/-- The per-entry step of the task-loading loops: a task that fails to
load is skipped, one that loads is added to the column. -/
def loadTaskStep (now : Nat) (c : Entity.Column) (e : String × TaskDirFs) :
    Entity.Column :=
  match loadTaskFrom e.snd e.fst now with
  | some t => c.addTask t
  | none => c

/-- loadTasks from board_repository_impl.go: prefer the tasks
subdirectory; without one, scan the column root keeping only task-shaped
directory names (loadTasksFromColumnRoot). -/
def loadTasksInto (col : Entity.Column) (cd : ColumnDirFs) (now : Nat) :
    Entity.Column :=
  match cd.tasksDir with
  | some entries => entries.foldl (loadTaskStep now) col
  | none =>
    cd.rootTasks.foldl (fun c e =>
      if (VO.parseTaskID e.fst).isSome then loadTaskStep now c e else c) col

/-- loadTasksLegacy from board_repository_impl.go: a legacy-located column
always has its tasks scanned from the column root. -/
def loadTasksLegacyInto (col : Entity.Column) (cd : ColumnDirFs) (now : Nat) :
    Entity.Column :=
  cd.rootTasks.foldl (fun c e =>
    if (VO.parseTaskID e.fst).isSome then loadTaskStep now c e else c) col

/-- loadColumn and loadColumnLegacy from board_repository_impl.go: with
both split files present parse them (a parse failure is an error); with
only column.md try the legacy front-matter format; with only metadata.yml
use the folder name as the display name and an empty description; with
neither, error.  The legacyLocation flag selects the task-loading
strategy, mirroring the two functions. -/
def loadColumnFrom (cd : ColumnDirFs) (folderName : String)
    (legacyLocation : Bool) (now : Nat) : Option Entity.Column :=
  match cd.metadataYml, cd.columnMd with
  | some my, some md =>
    match my with
    | none => none
    | some fm =>
      let tc := Serialization.parseMarkdownWithTitle md
      match Mapper.columnFromStorage ⟨fm, ""⟩ folderName tc.fst tc.snd with
      | none => none
      | some col =>
        some (if legacyLocation then loadTasksLegacyInto col cd now
              else loadTasksInto col cd now)
  | none, some md =>
    match Serialization.parseFrontmatter Serialization.yamlLineParse md with
    | some doc =>
      match Mapper.columnFromLegacyStorage doc folderName with
      | none => none
      | some col =>
        some (if legacyLocation then loadTasksLegacyInto col cd now
              else loadTasksInto col cd now)
    | none => none
  | some my, none =>
    match my with
    | none => none
    | some fm =>
      match Mapper.columnFromStorage ⟨fm, ""⟩ folderName folderName "" with
      | none => none
      | some col =>
        some (if legacyLocation then loadTasksLegacyInto col cd now
              else loadTasksInto col cd now)
  | none, none => none

/-- The per-entry step of the column-loading loops: a column that fails to
load is skipped, one that loads is added to the board. -/
def loadColumnStep (legacyLocation : Bool) (now : Nat) (bb : Entity.Board)
    (e : String × ColumnDirFs) : Entity.Board :=
  match loadColumnFrom e.snd e.fst legacyLocation now with
  | some c => bb.addColumn c
  | none => bb

/-- loadColumns and loadColumnsLegacy from board_repository_impl.go: scan
the columns subdirectory when present, otherwise scan the board root for
column-shaped directories; skip what fails to load; finally re-sort by the
order field. -/
def loadColumnsInto (b : Entity.Board) (fs : BoardDirFs) (now : Nat) :
    Entity.Board :=
  match fs.columnsDir with
  | some entries => (entries.foldl (loadColumnStep false now) b).reorderColumns
  | none =>
    (fs.legacyCols.foldl (fun bb e =>
      if e.fst = "columns" then bb
      else if e.snd.columnMd.isSome || e.snd.metadataYml.isSome then
        loadColumnStep true now bb e
      else bb) b).reorderColumns

/-- loadBoardMetadata from board_repository_impl.go: with both metadata.yml
and board.md present parse them (a parse failure is an error); with only
board.md try the legacy front-matter format; in every other case — in
particular with only metadata.yml present — return an error. -/
def loadBoardMetadataFrom (fs : BoardDirFs) (boardID : String) :
    Option Entity.Board :=
  match fs.metadataYml, fs.boardMd with
  | some my, some md =>
    match my with
    | none => none
    | some fm =>
      let tc := Serialization.parseMarkdownWithTitle md
      Mapper.boardFromStorage ⟨fm, ""⟩ tc.fst tc.snd
  | none, some md =>
    match Serialization.parseFrontmatter Serialization.yamlLineParse md with
    | some doc => Mapper.boardFromLegacyStorage doc boardID
    | none => none
  | _, none => none

/-- FindByID from board_repository_impl.go, after the existence check:
load the board metadata, then all columns. -/
def findByIDFrom (fs : BoardDirFs) (boardID : String) (now : Nat) :
    Option Entity.Board :=
  match loadBoardMetadataFrom fs boardID with
  | none => none
  | some b => some (loadColumnsInto b fs now)

/-- The normalized keys of the in-memory columns, as written by Save. -/
def savedColumnKeys (b : Entity.Board) : List String :=
  b.columns.map (fun c => Slug.generate c.displayName)

/-- cleanupOldColumns from board_repository_impl.go: nothing to clean when
the columns subdirectory does not exist; otherwise remove every column
directory whose name is not among the normalized keys of the in-memory
columns. -/
def cleanupOldColumnsFs (fs : BoardDirFs) (b : Entity.Board) : BoardDirFs :=
  match fs.columnsDir with
  | none => fs
  | some entries =>
    let kept := entries.filter (fun e => (savedColumnKeys b).contains e.fst)
    { fs with columnsDir := some kept }

/-- Save from board_repository_impl.go (error-free execution): write the
board metadata and content, save every column (with its tasks and task
reconciliation), then reconcile the columns subdirectory. -/
def saveBoardFs (fs : BoardDirFs) (b : Entity.Board) : BoardDirFs :=
  cleanupOldColumnsFs
    (b.columns.foldl saveColumnFs
      { fs with metadataYml := some (some (Mapper.boardMetadataToStorage b)),
                boardMd := some (Mapper.boardContentToMarkdown b) }) b

/-- The concrete column used in the C3 witness. -/
def c3Column : Entity.Column :=
  { displayName := "In Progress", description := "", order := 0,
    wipLimit := 3, color := none, tasks := [] }

/-- The concrete board used in the C3 witness. -/
def c3Board : Entity.Board :=
  { id := "B", name := "B", description := "", pfx := "B",
    nextTaskNum := 1, createdAt := 0, modifiedAt := 0,
    columns := [c3Column] }

/-- The concrete pre-save board directory used in the C3 witness: one
stale on-disk column directory not in the in-memory set. -/
def c3Fs : BoardDirFs :=
  ⟨none, none, some [("stale", ⟨none, none, none, []⟩)], []⟩

/-! ### Migration operations -/
/-- A directory recognised as a column: it has column.md or metadata.yml. -/
def isColumnShaped (cd : ColumnDirFs) : Bool :=
  cd.columnMd.isSome || cd.metadataYml.isSome

/-- The per-entry predicate of MigrateColumnsToSubdirectory: directories
named columns are skipped, column-shaped ones are moved. -/
def shouldMoveColumn (e : String × ColumnDirFs) : Bool :=
  if e.fst = "columns" then false else isColumnShaped e.snd

/-- MigrateColumnsToSubdirectory from board_repository_impl.go: a no-op
when the columns subdirectory already exists or when no column-shaped
directory sits in the board root; otherwise create columns and move every
column-shaped directory into it. -/
def migrateColumnsToSubdirectory (fs : BoardDirFs) : BoardDirFs :=
  match fs.columnsDir with
  | some _ => fs
  | none =>
    let toMove := fs.legacyCols.filter shouldMoveColumn
    if toMove.isEmpty then fs
    else
      { fs with
          columnsDir := some toMove,
          legacyCols := fs.legacyCols.filter (fun e => !(shouldMoveColumn e)) }

/-- The per-column body of MigrateTasksToSubdirectory: skip when the tasks
subdirectory already exists, when the directory is not column-shaped, or
when no task-shaped directory sits in the column root; otherwise create
tasks and move every task-shaped directory into it. -/
def migrateTasksOneColumn (cd : ColumnDirFs) : ColumnDirFs :=
  if cd.tasksDir.isSome then cd
  else if !(isColumnShaped cd) then cd
  else
    let toMove := cd.rootTasks.filter (fun e => (VO.parseTaskID e.fst).isSome)
    if toMove.isEmpty then cd
    else
      { cd with
          tasksDir := some toMove,
          rootTasks := cd.rootTasks.filter (fun e => !(VO.parseTaskID e.fst).isSome) }

/-- The per-entry step of MigrateTasksToSubdirectory: the directory named
columns is skipped. -/
def migrateTaskEntry (e : String × ColumnDirFs) : String × ColumnDirFs :=
  if e.fst = "columns" then e else (e.fst, migrateTasksOneColumn e.snd)

/-- MigrateTasksToSubdirectory from board_repository_impl.go: walk the
column directories (under columns when present, else the board root) and
promote each column's root tasks into a tasks subdirectory. -/
def migrateTasksToSubdirectory (fs : BoardDirFs) : BoardDirFs :=
  match fs.columnsDir with
  | some entries => { fs with columnsDir := some (entries.map migrateTaskEntry) }
  | none => { fs with legacyCols := fs.legacyCols.map migrateTaskEntry }

/-- The metadata.yml block MigrateColumnsToNewFormat writes for a column:
the ColumnStorage struct with an empty description, the order and WIP
limit from the legacy front matter, and the color only when present. -/
def mcnfMetadata (doc : Serialization.FrontmatterDocument) : Serialization.Frontmatter :=
  [("description", Serialization.FmValue.str ""),
   ("order", Serialization.FmValue.int (doc.getInt "order")),
   ("wip_limit", Serialization.FmValue.int (doc.getInt "wip_limit"))]
  ++ (if doc.getString "color" = "" then []
      else [("color", Serialization.FmValue.str (doc.getString "color"))])

/-- The column.md content MigrateColumnsToNewFormat writes: the legacy
display name (falling back to the original directory name) as heading,
then the legacy description. -/
def mcnfContent (doc : Serialization.FrontmatterDocument) (origName : String) : String :=
  let dn0 := doc.getString "display_name"
  Serialization.serializeMarkdownWithTitle (if dn0 = "" then origName else dn0)
    (doc.getString "description")

/-- Rename a directory entry in a listing (os.Rename of a column folder). -/
def renameEntry (entries : List (String × ColumnDirFs)) (oldName newName : String) :
    List (String × ColumnDirFs) :=
  entries.map (fun e => if e.fst = oldName then (newName, e.snd) else e)

/-- One loop iteration of MigrateColumnsToNewFormat over a directory name
from the initial listing.  All probing and writing goes through the
columns-subdirectory paths of the PathBuilder (also when the listing came
from the legacy location), so a name that no longer resolves there is
skipped; a column that already has metadata.yml, has no column.md, or
whose column.md is not front matter is skipped; otherwise the directory is
renamed to the slug of its folder name when that differs (failing if the
destination exists) and the split-pair files are written. -/
def mcnfStep (fs : BoardDirFs) (name : String) : Option BoardDirFs :=
  if name = "columns" then some fs
  else
    let entries := fs.columnsDir.getD []
    match entryLookup name entries with
    | none => some fs
    | some cd =>
      if cd.metadataYml.isSome then some fs
      else
        match cd.columnMd with
        | none => some fs
        | some data =>
          match Serialization.parseFrontmatter Serialization.yamlLineParse data with
          | none => some fs
          | some doc =>
            let normalized := Slug.generate name
            let cdNew := { cd with
              metadataYml := some (some (mcnfMetadata doc)),
              columnMd := some (mcnfContent doc name) }
            if normalized = name then
              some { fs with columnsDir := some (entryPut entries name cdNew) }
            else if (entryLookup normalized entries).isSome then none
            else
              some { fs with
                columnsDir :=
                  some (entryPut (renameEntry entries name normalized) normalized cdNew) }

/-- The loop of MigrateColumnsToNewFormat over the snapshot of names taken
by os.ReadDir before any rename. -/
def mcnfGo : List String → BoardDirFs → Option BoardDirFs
  | [], fs => some fs
  | name :: rest, fs =>
    match mcnfStep fs name with
    | none => none
    | some fs1 => mcnfGo rest fs1

/-- MigrateColumnsToNewFormat from board_repository_impl.go: iterate the
names listed under columns when it exists, else the names in the board
root. -/
def migrateColumnsToNewFormat (fs : BoardDirFs) : Option BoardDirFs :=
  match fs.columnsDir with
  | some entries => mcnfGo (entries.map (fun e => e.fst)) fs
  | none => mcnfGo (fs.legacyCols.map (fun e => e.fst)) fs

/-- A task directory with unparseable metadata, for the C7 witness. -/
def c7BadTask : TaskDirFs := { metadataYml := some none, taskMd := some "x" }

/-- A task directory that loads, for the C7 witness. -/
def c7GoodTask : TaskDirFs :=
  { metadataYml := some (some
      [("id", Serialization.FmValue.str "T-2"),
       ("title", Serialization.FmValue.str "Do"),
       ("priority", Serialization.FmValue.str "high"),
       ("status", Serialization.FmValue.str "todo")]),
    taskMd := some "body" }

/-- A column directory holding one corrupt and one valid task, and the
board directory around it, for the C7 witness. -/
def c7ColumnDir : ColumnDirFs :=
  { metadataYml := some (some [("order", Serialization.FmValue.int 0)]),
    columnMd := some "# Todo\n\n",
    tasksDir := some [("T-1-a", c7BadTask), ("T-2-b", c7GoodTask)],
    rootTasks := [] }

/-- The board directory for the C7 witness: one loadable column plus one
column directory that fails to load (no recognisable files). -/
def c7BoardDir : BoardDirFs :=
  { metadataYml := some (some [("id", Serialization.FmValue.str "b1")]),
    boardMd := some "# B\n\n",
    columnsDir := some [("broken", ⟨some none, none, none, []⟩), ("todo", c7ColumnDir)],
    legacyCols := [] }

/-- The column entity the C7 witness column loads into. -/
def c7Column : Entity.Column :=
  { displayName := "Todo", description := "", order := 0,
    wipLimit := 0, color := none, tasks := [] }

/-- The concrete legacy column directory refuting C5: the folder is named
My Tasks while its front matter stores the display name Different Name. -/
def c5Fs : BoardDirFs :=
  { metadataYml := none, boardMd := none,
    columnsDir := some [("My Tasks",
      { metadataYml := none,
        columnMd := some "---\ndisplay_name: Different Name\n---\n",
        tasksDir := none, rootTasks := [] })],
    legacyCols := [] }

/-- The parsed front matter of the c5Fs legacy column. -/
def c5Doc : Serialization.FrontmatterDocument :=
  ⟨[("display_name", Serialization.FmValue.str "Different Name")], ""⟩

/-- The pre-migration directory contents of the c5Fs legacy column. -/
def c5OldDir : ColumnDirFs :=
  { metadataYml := none,
    columnMd := some "---\ndisplay_name: Different Name\n---\n",
    tasksDir := none, rootTasks := [] }

/-- A column directory the format migration will never touch again: it
already has metadata.yml, or has no column.md, or its column.md does not
parse as front matter. -/
def mcnfStable (cd : ColumnDirFs) : Prop :=
  cd.metadataYml.isSome = true ∨ cd.columnMd = none
  ∨ ∃ data, cd.columnMd = some data
      ∧ Serialization.parseFrontmatter Serialization.yamlLineParse data = none

/-- The invariant of the format-migration loop: every directory entry is
the skipped columns name, still awaits its turn in the remaining names, or
is already stable. -/
def mcnfInv (entries : List (String × ColumnDirFs)) (names : List String) : Prop :=
  ∀ e ∈ entries, e.fst = "columns" ∨ e.fst ∈ names ∨ mcnfStable e.snd

/-- A legacy-layout board directory (no columns subdirectory, one legacy
column with a root task) for the C6 witness. -/
def c6LegacyFs : BoardDirFs :=
  { metadataYml := none, boardMd := none, columnsDir := none,
    legacyCols := [("Todo",
      { metadataYml := none, columnMd := some "---\norder: 1\n---\n",
        tasksDir := none,
        rootTasks := [("T-1-a",
          { metadataYml := some (some []), taskMd := some "x" })] })] }
end Repo

/-- The concrete task used to contradict C1: completed on day 5, created
on day 0, saved and then loaded back on day 9. -/
def c1Task : Entity.Task :=
  { id := ⟨"T", 1, "a"⟩, title := "t", description := "",
    priority := VO.Priority.noPriority, status := VO.Status.done,
    tags := [], createdAt := 0, modifiedAt := 0,
    dueDate := none, completedDate := some 5 }

/-! ## Claim C9 -/
/-- Apply a sequence of UpdateStatus calls, each at its own instant. -/
def applyStatusUpdates (t : Entity.Task) : List (VO.Status × Nat) → Entity.Task
  | [] => t
  | (s, n) :: rest => applyStatusUpdates (t.updateStatus s n) rest

/-- The instant of the first update in the sequence whose status is done. -/
def firstDoneTime : List (VO.Status × Nat) → Option Nat
  | [] => none
  | (s, n) :: rest => if s = VO.Status.done then some n else firstDoneTime rest

/-! ## Claim C8 -/
theorem scanLinesAux_ne_nil (l : List Char) : ∀ acc, scanLinesAux acc l ≠ [] := by
  induction l with
  | nil => intro acc; simp [scanLinesAux]
  | cons c cs ih =>
    intro acc
    by_cases h : c = '\n'
    · subst h
      cases cs <;> simp [scanLinesAux]
    · simp only [scanLinesAux, h, if_false]
      exact ih _

theorem linesOf_eq_nil {s : String} (h : linesOf s = []) : s = "" := by
  cases s with
  | mk data =>
    cases data with
    | nil => rfl
    | cons c cs =>
      exfalso
      apply scanLinesAux_ne_nil (c :: cs) []
      simpa [linesOf, scanLines] using h

/-- C8: ParseFrontmatter on input that does not begin with the delimiter
line returns an empty key/value block and the entire input as the body,
without failing; and SerializeFrontmatter always emits both the opening
and the closing delimiter lines, even for an empty key/value block. -/
theorem c8_frontmatter_graceful_parse_and_delimiter_pair :
    (∀ (yparse : String → Option Serialization.Frontmatter) (data : String),
      Serialization.beginsWithDelimiter data = false →
      Serialization.parseFrontmatter yparse data = some ⟨[], data⟩)
    ∧ (∀ (ymarshal : Serialization.Frontmatter → String)
        (fm : Serialization.Frontmatter) (content : String),
      ∃ mid rest,
        Serialization.serializeFrontmatter ymarshal fm content =
          Serialization.yamlDelimiter ++ "\n" ++ mid
            ++ Serialization.yamlDelimiter ++ "\n" ++ rest) := by
  constructor
  · intro yparse data h
    unfold Serialization.beginsWithDelimiter at h
    unfold Serialization.parseFrontmatter
    cases hl : linesOf data with
    | nil => simp [linesOf_eq_nil hl]
    | cons l rest =>
      rw [hl] at h
      simp only [decide_eq_false_iff_not] at h
      simp [h]
  · intro ymarshal fm content
    exact ⟨(if fm.isEmpty then "" else ymarshal fm),
      (if content = "" then "" else content ++ "\n"), rfl⟩

/-- Witness for C8 at concrete inputs. -/
theorem c8_frontmatter_witness :
    Serialization.parseFrontmatter (fun _ => none) "hello\nworld" =
      some ⟨[], "hello\nworld"⟩
    ∧ ∃ mid rest,
      Serialization.serializeFrontmatter (fun _ => "k: v\n")
          [("a", Serialization.FmValue.str "b")] "body" =
        Serialization.yamlDelimiter ++ "\n" ++ mid
          ++ Serialization.yamlDelimiter ++ "\n" ++ rest :=
  ⟨c8_frontmatter_graceful_parse_and_delimiter_pair.1 (fun _ => none)
      "hello\nworld" (by decide),
    c8_frontmatter_graceful_parse_and_delimiter_pair.2 (fun _ => "k: v\n")
      [("a", Serialization.FmValue.str "b")] "body"⟩
namespace Fsys

theorem fsGet_fsRemove (fs : Fs) (p q : FsPath) :
    fsGet (fsRemove fs p) q = if q = p then none else fsGet fs q := by
  induction fs with
  | nil => simp [fsGet, fsRemove]
  | cons e es ih =>
    by_cases hep : e.fst = p <;> by_cases heq : e.fst = q <;>
      simp_all [fsGet, fsRemove]

theorem fsGet_fsSet (fs : Fs) (p q : FsPath) (v : String) :
    fsGet (fsSet fs p v) q = if q = p then some v else fsGet fs q := by
  by_cases hqp : q = p
  · simp [fsGet, fsSet, hqp]
  · simp only [fsGet, fsSet]
    rw [if_neg (fun h => hqp (h.symm)), fsGet_fsRemove]
    simp [hqp]

theorem fsGet_none_of_long (fs : Fs) (p : FsPath)
    (h : maxLastLen fs < lastSegLen p) : fsGet fs p = none := by
  induction fs with
  | nil => rfl
  | cons e es ih =>
    simp only [maxLastLen, List.foldr] at h
    have hne : e.fst ≠ p := by
      intro heq
      rw [heq] at h
      omega
    simp only [fsGet, if_neg hne]
    exact ih (by simp only [maxLastLen]; omega)

theorem lastSegLen_tmpPathFor (fs : Fs) (target : FsPath) :
    lastSegLen (tmpPathFor fs target) = 5 + (maxLastLen fs + 1) := by
  simp [tmpPathFor, lastSegLen, tmpName]
  omega

theorem tmpPathFor_fresh (fs : Fs) (target : FsPath) :
    fsGet fs (tmpPathFor fs target) = none := by
  apply fsGet_none_of_long
  rw [lastSegLen_tmpPathFor]
  omega

theorem fsGet_remove_of_untouched (X fs : Fs) (tmp path : FsPath)
    (hother : ∀ q, q ≠ tmp → fsGet X q = fsGet fs q)
    (hfresh : fsGet fs tmp = none) :
    fsGet (fsRemove X tmp) path = fsGet fs path := by
  by_cases hpt : path = tmp
  · rw [hpt, fsGet_fsRemove, if_pos rfl, hfresh]
  · rw [fsGet_fsRemove, if_neg hpt, hother path hpt]

/-- C2: if any step of SafeWrite before the rename fails, the call reports
an error, the temp file is gone, and the target path holds exactly what it
held before the call; when every step succeeds, the write went to a fresh
temp name in the same directory as the target, which now holds the data. -/
theorem c2_safewrite_failure_leaves_target_untouched :
    (∀ (fs : Fs) (path : FsPath) (data : String) (step : SWStep),
      step ≠ SWStep.rename →
      (safeWrite (some step) fs path data).ok = false
      ∧ fsGet (safeWrite (some step) fs path data).fs path = fsGet fs path
      ∧ fsGet (safeWrite (some step) fs path data).fs (tmpPathFor fs path) = none)
    ∧ (∀ (fs : Fs) (path : FsPath) (data : String),
      (safeWrite none fs path data).ok = true
      ∧ fsGet fs (tmpPathFor fs path) = none
      ∧ (tmpPathFor fs path).dropLast = path.dropLast
      ∧ fsGet (safeWrite none fs path data).fs path = some data) := by
  have key : ∀ (fs : Fs) (path : FsPath) (a b : String),
      fsGet (fsRemove (fsSet (fsSet fs (tmpPathFor fs path) a) (tmpPathFor fs path) b)
        (tmpPathFor fs path)) path = fsGet fs path := by
    intro fs path a b
    apply fsGet_remove_of_untouched
    · intro q hq
      rw [fsGet_fsSet, if_neg hq, fsGet_fsSet, if_neg hq]
    · exact tmpPathFor_fresh fs path
  have key1 : ∀ (fs : Fs) (path : FsPath) (a : String),
      fsGet (fsRemove (fsSet fs (tmpPathFor fs path) a) (tmpPathFor fs path)) path
        = fsGet fs path := by
    intro fs path a
    apply fsGet_remove_of_untouched
    · intro q hq
      rw [fsGet_fsSet, if_neg hq]
    · exact tmpPathFor_fresh fs path
  have keytmp : ∀ (X : Fs) (tmp : FsPath), fsGet (fsRemove X tmp) tmp = none := by
    intro X tmp
    rw [fsGet_fsRemove, if_pos rfl]
  constructor
  · intro fs path data step hstep
    have hfresh := tmpPathFor_fresh fs path
    cases step with
    | mkdir => exact ⟨rfl, rfl, hfresh⟩
    | create => exact ⟨rfl, rfl, hfresh⟩
    | write => exact ⟨rfl, key1 fs path "", keytmp _ _⟩
    | sync => exact ⟨rfl, key fs path "" data, keytmp _ _⟩
    | close => exact ⟨rfl, key fs path "" data, keytmp _ _⟩
    | chmod => exact ⟨rfl, key fs path "" data, keytmp _ _⟩
    | rename => exact absurd rfl hstep
  · intro fs path data
    refine ⟨rfl, tmpPathFor_fresh fs path, ?_, ?_⟩
    · simp [tmpPathFor]
    · rw [show (safeWrite none fs path data).fs
          = fsSet (fsRemove (fsSet (fsSet fs (tmpPathFor fs path) "")
            (tmpPathFor fs path) data) (tmpPathFor fs path)) path data from rfl]
      rw [fsGet_fsSet, if_pos rfl]

/-- Witness for C2 at a concrete filesystem, target and failing step. -/
theorem c2_safewrite_witness :
    ((safeWrite (some SWStep.write) [(["b", "f.md"], "old")] ["b", "f.md"] "new").ok = false
      ∧ fsGet (safeWrite (some SWStep.write) [(["b", "f.md"], "old")] ["b", "f.md"] "new").fs
          ["b", "f.md"] = fsGet [(["b", "f.md"], "old")] ["b", "f.md"]
      ∧ fsGet (safeWrite (some SWStep.write) [(["b", "f.md"], "old")] ["b", "f.md"] "new").fs
          (tmpPathFor [(["b", "f.md"], "old")] ["b", "f.md"]) = none)
    ∧ ((safeWrite none [(["b", "f.md"], "old")] ["b", "f.md"] "new").ok = true
      ∧ fsGet [(["b", "f.md"], "old")] (tmpPathFor [(["b", "f.md"], "old")] ["b", "f.md"]) = none
      ∧ (tmpPathFor [(["b", "f.md"], "old")] ["b", "f.md"]).dropLast = (["b", "f.md"] : FsPath).dropLast
      ∧ fsGet (safeWrite none [(["b", "f.md"], "old")] ["b", "f.md"] "new").fs
          ["b", "f.md"] = some "new") :=
  ⟨c2_safewrite_failure_leaves_target_untouched.1 [(["b", "f.md"], "old")]
      ["b", "f.md"] "new" SWStep.write (by decide),
    c2_safewrite_failure_leaves_target_untouched.2 [(["b", "f.md"], "old")]
      ["b", "f.md"] "new"⟩
end Fsys
namespace Mapper

theorem parseRFC3339_formatRFC3339 (n : Nat) :
    parseRFC3339 (formatRFC3339 n) = some n := by
  have hall : (List.replicate n 'I').all (fun c => c = 'I') = true := by
    simp only [List.all_eq_true, decide_eq_true_eq]
    intro c hc
    exact List.eq_of_mem_replicate hc
  simp [parseRFC3339, formatRFC3339, hall]

theorem formatRFC3339_ne_empty (n : Nat) : formatRFC3339 n ≠ "" := by
  intro h
  have := congrArg String.data h
  simp [formatRFC3339] at this
end Mapper

/-! ## Association-list lemmas for directory listings -/
theorem entryLookup_append {α : Type} (k : String) (l1 l2 : List (String × α)) :
    entryLookup k (l1 ++ l2) =
      match entryLookup k l1 with
      | some v => some v
      | none => entryLookup k l2 := by
  induction l1 with
  | nil => simp [entryLookup]
  | cons e es ih => by_cases he : e.fst = k <;> simp [entryLookup, he, ih]

theorem entryLookup_none_of_any_false {α : Type} (k : String)
    (l : List (String × α)) (h : l.any (fun e => e.fst = k) = false) :
    entryLookup k l = none := by
  induction l with
  | nil => rfl
  | cons e es ih =>
    simp only [List.any_cons, Bool.or_eq_false_iff, decide_eq_false_iff_not] at h
    simp [entryLookup, h.1, ih h.2]

theorem entryLookup_map_put_self {α : Type} (k : String) (v : α)
    (l : List (String × α)) (h : l.any (fun e => e.fst = k) = true) :
    entryLookup k (l.map (fun e => if e.fst = k then (k, v) else e)) = some v := by
  induction l with
  | nil => simp at h
  | cons e es ih =>
    by_cases he : e.fst = k
    · simp [entryLookup, he]
    · simp only [List.any_cons, Bool.or_eq_true_iff, decide_eq_true_eq] at h
      have hes : es.any (fun e => e.fst = k) = true := by
        cases h with
        | inl h1 => exact absurd h1 he
        | inr h2 => exact h2
      simp only [List.map, if_neg he]
      simp [entryLookup, he, ih hes]

theorem entryLookup_map_put_other {α : Type} (k k' : String) (v : α)
    (l : List (String × α)) (hne : k' ≠ k) :
    entryLookup k' (l.map (fun e => if e.fst = k then (k, v) else e))
      = entryLookup k' l := by
  induction l with
  | nil => rfl
  | cons e es ih =>
    by_cases he : e.fst = k
    · have hek : ¬ (k = k') := fun hh => hne hh.symm
      have hek2 : ¬ (e.fst = k') := by
        rw [he]
        exact hek
      simp [entryLookup, he, hek, hek2, ih]
    · by_cases he' : e.fst = k'
      · simp [entryLookup, he, he', hne]
      · simp [entryLookup, he, he', ih]

theorem entryLookup_entryPut_self {α : Type} (l : List (String × α))
    (k : String) (v : α) :
    entryLookup k (entryPut l k v) = some v := by
  unfold entryPut
  by_cases h : l.any (fun e => e.fst = k)
  · rw [if_pos h]
    exact entryLookup_map_put_self k v l h
  · rw [if_neg h]
    rw [entryLookup_append]
    rw [entryLookup_none_of_any_false k l (eq_false_of_ne_true h)]
    simp [entryLookup]

theorem entryLookup_entryPut_other {α : Type} (l : List (String × α))
    (k k' : String) (v : α) (hne : k' ≠ k) :
    entryLookup k' (entryPut l k v) = entryLookup k' l := by
  unfold entryPut
  by_cases h : l.any (fun e => e.fst = k)
  · rw [if_pos h]
    exact entryLookup_map_put_other k k' v l hne
  · rw [if_neg h]
    rw [entryLookup_append]
    cases hl : entryLookup k' l with
    | some v' => rfl
    | none =>
      simp [entryLookup]
      exact fun hh => hne hh.symm

theorem entryLookup_filter_none {α : Type} (k : String) (keys : List String)
    (l : List (String × α)) (h : keys.contains k = false) :
    entryLookup k (l.filter (fun e => keys.contains e.fst)) = none := by
  induction l with
  | nil => rfl
  | cons e es ih =>
    rw [List.filter_cons]
    by_cases he : e.fst = k
    · rw [show keys.contains e.fst = false by rw [he]; exact h]
      rw [if_neg (by simp)]
      exact ih
    · cases hk : keys.contains e.fst with
      | true =>
        rw [if_pos (by simp)]
        simp only [entryLookup, if_neg he]
        exact ih
      | false =>
        rw [if_neg (by simp)]
        exact ih

theorem entryLookup_filter_keys {α : Type} (k : String) (keys : List String)
    (l : List (String × α)) (h : keys.contains k = true) :
    entryLookup k (l.filter (fun e => keys.contains e.fst))
      = entryLookup k l := by
  induction l with
  | nil => rfl
  | cons e es ih =>
    rw [List.filter_cons]
    by_cases he : e.fst = k
    · rw [show keys.contains e.fst = true by rw [he]; exact h]
      rw [if_pos (by simp)]
      simp [entryLookup, he]
    · cases hk : keys.contains e.fst with
      | true =>
        rw [if_pos (by simp)]
        simp only [entryLookup, if_neg he]
        exact ih
      | false =>
        rw [if_neg (by simp)]
        rw [ih]
        simp [entryLookup, he]
namespace Repo

/-! ## Claims C3 and C10 -/
theorem saveColumnFs_columnsDir (fs : BoardDirFs) (col : Entity.Column) :
    (saveColumnFs fs col).columnsDir
      = some (entryPut (fs.columnsDir.getD [])
          (Slug.generate col.displayName) (savedColumnDirOf fs col)) := rfl

theorem cleanupOldColumnsFs_columnsDir (fs : BoardDirFs) (b : Entity.Board)
    (es : List (String × ColumnDirFs)) (h : fs.columnsDir = some es) :
    (cleanupOldColumnsFs fs b).columnsDir
      = some (es.filter (fun e => (savedColumnKeys b).contains e.fst)) := by
  unfold cleanupOldColumnsFs
  rw [h]

theorem cleanupOldColumnsFs_legacyCols (fs : BoardDirFs) (b : Entity.Board) :
    (cleanupOldColumnsFs fs b).legacyCols = fs.legacyCols := by
  unfold cleanupOldColumnsFs
  cases fs.columnsDir <;> rfl

theorem savefold_preserves_some (cols : List Entity.Column) :
    ∀ (fs : Repo.BoardDirFs) (k : String) (cd : ColumnDirFs),
    entryLookup k (fs.columnsDir.getD []) = some cd →
    ∃ cd', entryLookup k ((cols.foldl saveColumnFs fs).columnsDir.getD [])
      = some cd' := by
  induction cols with
  | nil => intro fs k cd h; exact ⟨cd, h⟩
  | cons c cs ih =>
    intro fs k cd h
    rw [List.foldl_cons]
    by_cases hk : k = Slug.generate c.displayName
    · subst hk
      apply ih (saveColumnFs fs c) _ (savedColumnDirOf fs c)
      rw [saveColumnFs_columnsDir]
      simp only [Option.getD_some]
      rw [entryLookup_entryPut_self]
    · apply ih (saveColumnFs fs c) k cd
      rw [saveColumnFs_columnsDir]
      simp only [Option.getD_some]
      rw [entryLookup_entryPut_other _ _ _ _ hk]
      exact h

theorem savefold_lookup_some (cols : List Entity.Column) :
    ∀ (fs : BoardDirFs) (c : Entity.Column), c ∈ cols →
    ∃ cd, entryLookup (Slug.generate c.displayName)
        ((cols.foldl saveColumnFs fs).columnsDir.getD []) = some cd := by
  induction cols with
  | nil => intro fs c h; cases h
  | cons c0 cs ih =>
    intro fs c hc
    rw [List.foldl_cons]
    cases hc with
    | head =>
      apply savefold_preserves_some cs (saveColumnFs fs c0) _ _
      rw [saveColumnFs_columnsDir]
      simp only [Option.getD_some]
      rw [entryLookup_entryPut_self]
    | tail _ htl => exact ih (saveColumnFs fs c0) c htl

theorem savefold_columnsDir_isSome (cols : List Entity.Column) :
    ∀ (fs : BoardDirFs), fs.columnsDir.isSome →
    ((cols.foldl saveColumnFs fs).columnsDir).isSome := by
  induction cols with
  | nil => intro fs h; exact h
  | cons c cs ih =>
    intro fs _
    rw [List.foldl_cons]
    apply ih
    rw [saveColumnFs_columnsDir]
    rfl

/-- C3: a successful Save deletes from the columns subdirectory every
column directory whose key is not among the normalized keys of the
in-memory columns just written (removing the entry removes its entire
subtree), and every key just written is present afterwards. -/
theorem c3_save_reconciles_columns (b : Entity.Board) (fs : BoardDirFs)
    (entries : List (String × ColumnDirFs))
    (hcols : fs.columnsDir = some entries) :
    (∀ name cd, (name, cd) ∈ entries →
      (savedColumnKeys b).contains name = false →
      entryLookup name ((saveBoardFs fs b).columnsDir.getD []) = none)
    ∧ (∀ c ∈ b.columns,
      ∃ cd, entryLookup (Slug.generate c.displayName)
        ((saveBoardFs fs b).columnsDir.getD []) = some cd) := by
  have hsome : ((b.columns.foldl saveColumnFs
      { fs with metadataYml := some (some (Mapper.boardMetadataToStorage b)),
                boardMd := some (Mapper.boardContentToMarkdown b) }).columnsDir).isSome := by
    apply savefold_columnsDir_isSome
    show (fs.columnsDir).isSome
    rw [hcols]
    rfl
  obtain ⟨es2, hes2⟩ := Option.isSome_iff_exists.mp hsome
  have hfinal : (saveBoardFs fs b).columnsDir
      = some (es2.filter (fun e => (savedColumnKeys b).contains e.fst)) := by
    unfold saveBoardFs
    exact cleanupOldColumnsFs_columnsDir _ b es2 hes2
  constructor
  · intro name cd _ hname
    rw [hfinal]
    simp only [Option.getD_some]
    exact entryLookup_filter_none name (savedColumnKeys b) es2 hname
  · intro c hc
    have hkey : (savedColumnKeys b).contains (Slug.generate c.displayName) = true := by
      simp only [savedColumnKeys, List.contains_eq_any_beq, List.any_eq_true]
      exact ⟨Slug.generate c.displayName, List.mem_map_of_mem _ hc, by simp⟩
    obtain ⟨cd, hcd⟩ := savefold_lookup_some b.columns
      { fs with metadataYml := some (some (Mapper.boardMetadataToStorage b)),
                boardMd := some (Mapper.boardContentToMarkdown b) } c hc
    refine ⟨cd, ?_⟩
    rw [hfinal]
    simp only [Option.getD_some]
    rw [entryLookup_filter_keys _ _ _ hkey]
    rw [hes2] at hcd
    simpa using hcd

/-- Witness for C3 at a concrete board and filesystem: the stale column
directory is deleted, the saved one is present. -/
theorem c3_save_reconciles_columns_witness :
    (∀ name cd, (name, cd) ∈ [("stale", (⟨none, none, none, []⟩ : ColumnDirFs))] →
      (savedColumnKeys c3Board).contains name = false →
      entryLookup name ((saveBoardFs c3Fs c3Board).columnsDir.getD []) = none)
    ∧ (∀ c ∈ c3Board.columns,
      ∃ cd, entryLookup (Slug.generate c.displayName)
        ((saveBoardFs c3Fs c3Board).columnsDir.getD []) = some cd) :=
  c3_save_reconciles_columns c3Board c3Fs
    [("stale", ⟨none, none, none, []⟩)] rfl

/-- C10: the column-reconciliation step deletes nothing when the board
directory has no columns subdirectory, the task-reconciliation step
deletes nothing when the column directory has no tasks subdirectory, and
Save never touches directories outside the columns subdirectory (legacy
column directories survive every Save). -/
theorem c10_cleanup_skips_legacy_layouts :
    (∀ (b : Entity.Board) (fs : BoardDirFs), fs.columnsDir = none →
      cleanupOldColumnsFs fs b = fs)
    ∧ (∀ (col : Entity.Column) (cd : ColumnDirFs), cd.tasksDir = none →
      cleanupOldTasksFs cd col = cd)
    ∧ (∀ (b : Entity.Board) (fs : BoardDirFs),
      (saveBoardFs fs b).legacyCols = fs.legacyCols) := by
  refine ⟨?_, ?_, ?_⟩
  · intro b fs h
    unfold cleanupOldColumnsFs
    rw [h]
  · intro col cd h
    unfold cleanupOldTasksFs
    rw [h]
  · intro b fs
    have hfold : ∀ (cols : List Entity.Column) (fs0 : BoardDirFs),
        ((cols.foldl saveColumnFs fs0)).legacyCols = fs0.legacyCols := by
      intro cols
      induction cols with
      | nil => intro fs0; rfl
      | cons c cs ih =>
        intro fs0
        rw [List.foldl_cons, ih]
        rfl
    unfold saveBoardFs
    rw [cleanupOldColumnsFs_legacyCols, hfold]

/-- Witness for C10 at concrete legacy-layout states. -/
theorem c10_cleanup_skips_legacy_witness :
    cleanupOldColumnsFs
        ⟨none, none, none, [("todo", ⟨none, some "x", none, []⟩)]⟩
        { id := "B", name := "B", description := "", pfx := "B",
          nextTaskNum := 1, createdAt := 0, modifiedAt := 0, columns := [] }
      = ⟨none, none, none, [("todo", ⟨none, some "x", none, []⟩)]⟩
    ∧ cleanupOldTasksFs
        ⟨none, some "x", none, [("T-1-a", ⟨none, none⟩)]⟩
        { displayName := "Todo", description := "", order := 0,
          wipLimit := 0, color := none, tasks := [] }
      = ⟨none, some "x", none, [("T-1-a", ⟨none, none⟩)]⟩ :=
  ⟨c10_cleanup_skips_legacy_layouts.1
      { id := "B", name := "B", description := "", pfx := "B",
        nextTaskNum := 1, createdAt := 0, modifiedAt := 0, columns := [] }
      ⟨none, none, none, [("todo", ⟨none, some "x", none, []⟩)]⟩ rfl,
    c10_cleanup_skips_legacy_layouts.2.1
      { displayName := "Todo", description := "", order := 0,
        wipLimit := 0, color := none, tasks := [] }
      ⟨none, some "x", none, [("T-1-a", ⟨none, none⟩)]⟩ rfl⟩

/-! ## Claims C4 and C7 -/
theorem foldl_preserves_column_fields {β : Type}
    (g : Entity.Column → β → Entity.Column)
    (hg : ∀ c e, (g c e).displayName = c.displayName
      ∧ (g c e).description = c.description)
    (l : List β) : ∀ c : Entity.Column,
    (l.foldl g c).displayName = c.displayName
    ∧ (l.foldl g c).description = c.description := by
  induction l with
  | nil => intro c; exact ⟨rfl, rfl⟩
  | cons e es ih =>
    intro c
    rw [List.foldl_cons]
    obtain ⟨h1, h2⟩ := ih (g c e)
    obtain ⟨g1, g2⟩ := hg c e
    exact ⟨h1.trans g1, h2.trans g2⟩

theorem loadTaskStep_fields (now : Nat) (c : Entity.Column)
    (e : String × TaskDirFs) :
    (loadTaskStep now c e).displayName = c.displayName
    ∧ (loadTaskStep now c e).description = c.description := by
  unfold loadTaskStep
  cases loadTaskFrom e.snd e.fst now <;> exact ⟨rfl, rfl⟩

theorem loadTasksInto_fields (col : Entity.Column) (cd : ColumnDirFs) (now : Nat) :
    (loadTasksInto col cd now).displayName = col.displayName
    ∧ (loadTasksInto col cd now).description = col.description := by
  unfold loadTasksInto
  cases cd.tasksDir with
  | some entries => exact foldl_preserves_column_fields _ (loadTaskStep_fields now) entries col
  | none =>
    apply foldl_preserves_column_fields
    intro c e
    by_cases hp : (VO.parseTaskID e.fst).isSome
    · simp only [hp, if_true]
      exact loadTaskStep_fields now c e
    · simp [hp]

theorem foldl_loadTaskStep_tasks (entries : List (String × TaskDirFs)) (now : Nat) :
    ∀ col : Entity.Column,
    (entries.foldl (loadTaskStep now) col).tasks
      = col.tasks ++ entries.filterMap (fun e => loadTaskFrom e.snd e.fst now) := by
  induction entries with
  | nil => intro col; simp
  | cons e es ih =>
    intro col
    rw [List.foldl_cons, List.filterMap_cons]
    cases h : loadTaskFrom e.snd e.fst now with
    | none =>
      rw [show loadTaskStep now col e = col by unfold loadTaskStep; rw [h]]
      exact ih col
    | some t =>
      rw [show loadTaskStep now col e = col.addTask t by unfold loadTaskStep; rw [h]]
      rw [ih (col.addTask t)]
      simp [Entity.Column.addTask]

theorem foldl_loadColumnStep_mono (entries : List (String × ColumnDirFs))
    (now : Nat) (lg : Bool) :
    ∀ (b : Entity.Board) (x : Entity.Column), x ∈ b.columns →
    x ∈ ((entries.foldl (loadColumnStep lg now) b).columns) := by
  induction entries with
  | nil => intro b x h; exact h
  | cons e es ih =>
    intro b x h
    rw [List.foldl_cons]
    apply ih
    unfold loadColumnStep
    cases loadColumnFrom e.snd e.fst lg now with
    | none => exact h
    | some c =>
      simp only [Entity.Board.addColumn]
      exact List.mem_append_left _ h

theorem foldl_loadColumnStep_mem (entries : List (String × ColumnDirFs)) (now : Nat) :
    ∀ (b : Entity.Board) (name : String) (cd : ColumnDirFs) (c : Entity.Column),
    (name, cd) ∈ entries →
    loadColumnFrom cd name false now = some c →
    c ∈ ((entries.foldl (loadColumnStep false now) b).columns) := by
  induction entries with
  | nil => intro b name cd c h; cases h
  | cons e es ih =>
    intro b name cd c hmem hload
    rw [List.foldl_cons]
    cases hmem with
    | head =>
      apply foldl_loadColumnStep_mono
      unfold loadColumnStep
      simp only
      rw [hload]
      simp only [Entity.Board.addColumn]
      exact List.mem_append_right _ (by simp)
    | tail _ htl => exact ih _ name cd c htl hload

theorem mem_insertByOrder (x c : Entity.Column) (l : List Entity.Column)
    (h : x = c ∨ x ∈ l) : x ∈ Entity.insertByOrder c l := by
  induction l with
  | nil =>
    unfold Entity.insertByOrder
    rcases h with h | h
    · simp [h]
    · cases h
  | cons d ds ih =>
    unfold Entity.insertByOrder
    by_cases hd : d.order ≤ c.order
    · rw [if_pos hd]
      rcases h with h | h
      · exact List.mem_cons_of_mem d (ih (Or.inl h))
      · cases h with
        | head => exact List.mem_cons_self _ _
        | tail _ htl => exact List.mem_cons_of_mem d (ih (Or.inr htl))
    · rw [if_neg hd]
      rcases h with h | h
      · simp [h]
      · simp [h]

theorem mem_sortByOrder (x : Entity.Column) (l : List Entity.Column)
    (h : x ∈ l) : x ∈ Entity.sortByOrder l := by
  induction l with
  | nil => cases h
  | cons c cs ih =>
    unfold Entity.sortByOrder
    cases h with
    | head => exact mem_insertByOrder x x _ (Or.inl rfl)
    | tail _ htl => exact mem_insertByOrder x c _ (Or.inr (ih htl))

/-- C7: loading the tasks of a column with a tasks subdirectory yields
exactly the tasks whose individual loads succeed, in directory order — a
task directory with corrupted (unreadable or unparseable) metadata is
skipped and never fatal to its siblings; and any column of the columns
subdirectory that loads successfully ends up in the loaded board no matter
how many sibling columns fail to load. -/
theorem c7_corrupt_sibling_skipped_not_fatal :
    (∀ (col : Entity.Column) (cd : ColumnDirFs)
      (entries : List (String × TaskDirFs)) (now : Nat),
      cd.tasksDir = some entries →
      (loadTasksInto col cd now).tasks
        = col.tasks ++ entries.filterMap (fun e => loadTaskFrom e.snd e.fst now))
    ∧ (∀ (b : Entity.Board) (fs : BoardDirFs)
      (entries : List (String × ColumnDirFs)) (now : Nat)
      (name : String) (cd : ColumnDirFs) (c : Entity.Column),
      fs.columnsDir = some entries →
      (name, cd) ∈ entries →
      loadColumnFrom cd name false now = some c →
      c ∈ (loadColumnsInto b fs now).columns) := by
  constructor
  · intro col cd entries now h
    unfold loadTasksInto
    rw [h]
    exact foldl_loadTaskStep_tasks entries now col
  · intro b fs entries now name cd c hcols hmem hload
    unfold loadColumnsInto
    rw [hcols]
    unfold Entity.Board.reorderColumns
    simp only
    exact mem_sortByOrder c _ (foldl_loadColumnStep_mem entries now b name cd c hmem hload)

/-- Witness for C7 at a concrete board directory with one corrupted task
and one broken sibling column. -/
theorem c7_corrupt_sibling_witness :
    ((loadTasksInto c7Column c7ColumnDir 0).tasks
      = c7Column.tasks
        ++ [("T-1-a", c7BadTask), ("T-2-b", c7GoodTask)].filterMap
            (fun e => loadTaskFrom e.snd e.fst 0))
    ∧ ((loadColumnFrom c7ColumnDir "todo" false 0).getD c7Column
        ∈ (loadColumnsInto
            { id := "b1", name := "B", description := "", pfx := "T",
              nextTaskNum := 3, createdAt := 0, modifiedAt := 0, columns := [] }
            c7BoardDir 0).columns) :=
  ⟨c7_corrupt_sibling_skipped_not_fatal.1 c7Column c7ColumnDir
      [("T-1-a", c7BadTask), ("T-2-b", c7GoodTask)] 0 rfl,
    c7_corrupt_sibling_skipped_not_fatal.2
      { id := "b1", name := "B", description := "", pfx := "T",
        nextTaskNum := 3, createdAt := 0, modifiedAt := 0, columns := [] }
      c7BoardDir [("broken", ⟨some none, none, none, []⟩), ("todo", c7ColumnDir)] 0
      "todo" c7ColumnDir _ rfl (by simp) (by rfl)⟩

/-- C4 amended: a column directory where only metadata.yml exists still
loads, synthesizing the display name from the directory name with an empty
description; but a board directory where only metadata.yml exists does not
load — loadBoardMetadata has no metadata-only fallback and returns an
error. -/
theorem c4_metadata_only_amended :
    (∀ (cd : ColumnDirFs) (folderName : String)
      (fm : Serialization.Frontmatter) (now : Nat),
      cd.metadataYml = some (some fm) → cd.columnMd = none → folderName ≠ "" →
      ∃ col, loadColumnFrom cd folderName false now = some col
        ∧ col.displayName = folderName ∧ col.description = "")
    ∧ (∀ (fs : BoardDirFs) (boardID : String)
      (my : Option Serialization.Frontmatter),
      fs.metadataYml = some my → fs.boardMd = none →
      loadBoardMetadataFrom fs boardID = none) := by
  constructor
  · intro cd folderName fm now hmeta hmd hname
    obtain ⟨my, cmd, td, rt⟩ := cd
    simp only at hmeta hmd
    subst hmeta
    subst hmd
    unfold loadColumnFrom
    simp only [Mapper.columnFromStorage, Entity.newColumn,
      Serialization.FrontmatterDocument.getString, if_neg hname]
    refine ⟨_, rfl, ?_, ?_⟩
    · exact (loadTasksInto_fields _ _ _).1
    · exact (loadTasksInto_fields _ _ _).2
  · intro fs boardID my hmeta hmd
    obtain ⟨fmy, bmd, cdir, lc⟩ := fs
    simp only at hmeta hmd
    subst hmeta
    subst hmd
    rfl

/-- C4 counterexample: a board directory in the half-migrated state — a
present, parseable metadata.yml but no board.md — fails to load instead of
synthesizing a title from the directory name, contradicting the claim for
board entities. -/
theorem c4_board_metadata_only_counterexample :
    (⟨some (some [("id", Serialization.FmValue.str "b1")]), none, none, []⟩
        : BoardDirFs).metadataYml
      = some (some [("id", Serialization.FmValue.str "b1")])
    ∧ (⟨some (some [("id", Serialization.FmValue.str "b1")]), none, none, []⟩
        : BoardDirFs).boardMd = none
    ∧ loadBoardMetadataFrom
        ⟨some (some [("id", Serialization.FmValue.str "b1")]), none, none, []⟩
        "b1" = none :=
  ⟨rfl, rfl, rfl⟩

/-- Witness for the amended C4 at concrete directories. -/
theorem c4_metadata_only_witness :
    (∃ col, loadColumnFrom
        ⟨some (some [("order", Serialization.FmValue.int 2)]), none, none, []⟩
        "in-progress" false 0 = some col
      ∧ col.displayName = "in-progress" ∧ col.description = "")
    ∧ loadBoardMetadataFrom
        ⟨some (some [("id", Serialization.FmValue.str "b1")]), none, none, []⟩
        "b1" = none :=
  ⟨c4_metadata_only_amended.1
      ⟨some (some [("order", Serialization.FmValue.int 2)]), none, none, []⟩
      "in-progress" [("order", Serialization.FmValue.int 2)] 0 rfl rfl (by decide),
    c4_metadata_only_amended.2
      ⟨some (some [("id", Serialization.FmValue.str "b1")]), none, none, []⟩
      "b1" (some [("id", Serialization.FmValue.str "b1")]) rfl rfl⟩

/-! ## Claim C5 -/
theorem entryLookup_renameEntry_old (entries : List (String × ColumnDirFs))
    (oldName newName : String) (h : newName ≠ oldName) :
    entryLookup oldName (renameEntry entries oldName newName) = none := by
  induction entries with
  | nil => rfl
  | cons e es ih =>
    unfold renameEntry at ih ⊢
    by_cases he : e.fst = oldName
    · simp only [List.map, if_pos he]
      simp only [entryLookup, if_neg h]
      exact ih
    · simp only [List.map, if_neg he]
      simp only [entryLookup, if_neg he]
      exact ih

/-- C5 counterexample: the migration reads the legacy display name (it
lands in the new column.md heading) but computes the new directory key
from the existing folder name, not from the display name: the migrated
directory is my-tasks, and different-name does not exist. -/
theorem c5_key_from_folder_name_counterexample :
    Slug.generate "Different Name" = "different-name"
    ∧ Slug.generate "My Tasks" = "my-tasks"
    ∧ (migrateColumnsToNewFormat c5Fs).map
        (fun f => ((entryLookup "different-name" (f.columnsDir.getD [])).isSome,
          (entryLookup "my-tasks" (f.columnsDir.getD [])).isSome))
      = some (false, true)
    ∧ (migrateColumnsToNewFormat c5Fs).map
        (fun f => (entryLookup "my-tasks" (f.columnsDir.getD [])).map
          (fun cd => cd.columnMd))
      = some (some (some "# Different Name\n\n")) := by
  decide

/-- C5 amended: for every legacy front-matter column the migration
rewrites, the new normalized directory key is recomputed from the existing
folder name (not from the stored display name), and the directory is
renamed exactly when slug(folderName) differs from folderName: the entry
ends up at the key slug(folderName) carrying the new split-pair files, and
the old name is gone precisely when the computed key differs. -/
theorem c5_key_from_folder_name_amended (fs : BoardDirFs)
    (entries : List (String × ColumnDirFs)) (name : String) (cd : ColumnDirFs)
    (data : String) (doc : Serialization.FrontmatterDocument)
    (hcols : fs.columnsDir = some entries)
    (hname : name ≠ "columns")
    (hlook : entryLookup name entries = some cd)
    (hmeta : cd.metadataYml = none)
    (hmd : cd.columnMd = some data)
    (hdoc : Serialization.parseFrontmatter Serialization.yamlLineParse data = some doc)
    (hfree : Slug.generate name ≠ name →
      entryLookup (Slug.generate name) entries = none) :
    ∃ fs1, mcnfStep fs name = some fs1
      ∧ entryLookup (Slug.generate name) (fs1.columnsDir.getD [])
          = some { cd with metadataYml := some (some (mcnfMetadata doc)),
                           columnMd := some (mcnfContent doc name) }
      ∧ (Slug.generate name ≠ name →
          entryLookup name (fs1.columnsDir.getD []) = none) := by
  unfold mcnfStep
  rw [if_neg hname, hcols]
  simp only [Option.getD_some]
  rw [hlook]
  simp only []
  rw [hmeta]
  simp only [Option.isSome_none]
  rw [if_neg (by simp)]
  rw [hmd]
  simp only []
  rw [hdoc]
  simp only []
  by_cases hs : Slug.generate name = name
  · rw [if_pos hs]
    refine ⟨_, rfl, ?_, ?_⟩
    · simp only [Option.getD_some]
      rw [hs, entryLookup_entryPut_self]
    · intro hne
      exact absurd hs hne
  · rw [if_neg hs]
    rw [show (entryLookup (Slug.generate name) entries).isSome = false by
      rw [hfree hs]; rfl]
    rw [if_neg (by simp)]
    refine ⟨_, rfl, ?_, ?_⟩
    · simp only [Option.getD_some]
      rw [entryLookup_entryPut_self]
    · intro _
      simp only [Option.getD_some]
      rw [entryLookup_entryPut_other _ _ _ _ (fun hh => hs hh.symm)]
      exact entryLookup_renameEntry_old entries name (Slug.generate name) hs

/-- Witness for the amended C5 at the concrete c5Fs directory. -/
theorem c5_key_from_folder_name_witness :
    ∃ fs1, mcnfStep c5Fs "My Tasks" = some fs1
      ∧ entryLookup (Slug.generate "My Tasks") (fs1.columnsDir.getD [])
          = some { c5OldDir with
              metadataYml := some (some (mcnfMetadata c5Doc)),
              columnMd := some (mcnfContent c5Doc "My Tasks") }
      ∧ (Slug.generate "My Tasks" ≠ "My Tasks" →
          entryLookup "My Tasks" (fs1.columnsDir.getD []) = none) :=
  c5_key_from_folder_name_amended c5Fs [("My Tasks", c5OldDir)] "My Tasks"
    c5OldDir "---\ndisplay_name: Different Name\n---\n" c5Doc
    rfl (by decide) rfl rfl rfl (by decide) (fun _ => rfl)

/-! ## Claim C6 -/
theorem migrateColumnsToSubdirectory_of_some (fs : BoardDirFs)
    (h : fs.columnsDir.isSome) : migrateColumnsToSubdirectory fs = fs := by
  obtain ⟨es, hes⟩ := Option.isSome_iff_exists.mp h
  unfold migrateColumnsToSubdirectory
  rw [hes]

theorem migrateColumnsToSubdirectory_idem (fs : BoardDirFs) :
    migrateColumnsToSubdirectory (migrateColumnsToSubdirectory fs)
      = migrateColumnsToSubdirectory fs := by
  cases hc : fs.columnsDir with
  | some es =>
    have h1 : migrateColumnsToSubdirectory fs = fs :=
      migrateColumnsToSubdirectory_of_some fs (by rw [hc]; rfl)
    rw [h1, h1]
  | none =>
    by_cases he : (fs.legacyCols.filter shouldMoveColumn).isEmpty
    · have h1 : migrateColumnsToSubdirectory fs = fs := by
        unfold migrateColumnsToSubdirectory
        rw [hc]
        simp only []
        rw [if_pos he]
      rw [h1, h1]
    · have h1 : (migrateColumnsToSubdirectory fs).columnsDir
          = some (fs.legacyCols.filter shouldMoveColumn) := by
        unfold migrateColumnsToSubdirectory
        rw [hc]
        simp only []
        rw [if_neg he]
      exact migrateColumnsToSubdirectory_of_some _ (by rw [h1]; rfl)

theorem migrateTasksOneColumn_of_some (cd : ColumnDirFs)
    (h : cd.tasksDir.isSome) : migrateTasksOneColumn cd = cd := by
  unfold migrateTasksOneColumn
  rw [if_pos h]

theorem migrateTasksOneColumn_cases (cd : ColumnDirFs) :
    migrateTasksOneColumn cd = cd
    ∨ (migrateTasksOneColumn cd).tasksDir.isSome = true := by
  unfold migrateTasksOneColumn
  by_cases h1 : cd.tasksDir.isSome
  · rw [if_pos h1]
    left
    rfl
  · rw [if_neg h1]
    by_cases h2 : (!isColumnShaped cd) = true
    · rw [if_pos h2]
      left
      rfl
    · rw [if_neg h2]
      by_cases h3 :
          (cd.rootTasks.filter (fun e => (VO.parseTaskID e.fst).isSome)).isEmpty
      · rw [if_pos h3]
        left
        rfl
      · rw [if_neg h3]
        right
        rfl

theorem migrateTasksOneColumn_idem (cd : ColumnDirFs) :
    migrateTasksOneColumn (migrateTasksOneColumn cd) = migrateTasksOneColumn cd := by
  rcases migrateTasksOneColumn_cases cd with h | h
  · rw [h]
    exact h
  · exact migrateTasksOneColumn_of_some _ h

theorem migrateTaskEntry_idem (e : String × ColumnDirFs) :
    migrateTaskEntry (migrateTaskEntry e) = migrateTaskEntry e := by
  unfold migrateTaskEntry
  by_cases h : e.fst = "columns"
  · rw [if_pos h, if_pos h]
  · rw [if_neg h]
    rw [if_neg (by simpa using h)]
    rw [migrateTasksOneColumn_idem]

theorem map_migrateTaskEntry_idem (l : List (String × ColumnDirFs)) :
    (l.map migrateTaskEntry).map migrateTaskEntry = l.map migrateTaskEntry := by
  induction l with
  | nil => rfl
  | cons e es ih =>
    simp only [List.map]
    rw [migrateTaskEntry_idem, ih]

theorem migrateTasksToSubdirectory_idem (fs : BoardDirFs) :
    migrateTasksToSubdirectory (migrateTasksToSubdirectory fs)
      = migrateTasksToSubdirectory fs := by
  unfold migrateTasksToSubdirectory
  cases hc : fs.columnsDir with
  | some entries =>
    simp only []
    rw [map_migrateTaskEntry_idem]
  | none =>
    simp only []
    rw [map_migrateTaskEntry_idem]

theorem entryLookup_some_mem {α : Type} (k : String) (l : List (String × α))
    (v : α) (h : entryLookup k l = some v) : (k, v) ∈ l := by
  induction l with
  | nil => cases h
  | cons e es ih =>
    obtain ⟨a, b⟩ := e
    by_cases he : a = k
    · subst he
      simp [entryLookup] at h
      subst h
      exact List.mem_cons_self _ _
    · simp [entryLookup, he] at h
      exact List.mem_cons_of_mem _ (ih h)

theorem entryLookup_none_not_key {α : Type} (k : String) (l : List (String × α))
    (h : entryLookup k l = none) : ∀ e ∈ l, e.fst ≠ k := by
  induction l with
  | nil => intro e he; cases he
  | cons e0 es ih =>
    intro e he
    by_cases he0 : e0.fst = k
    · simp [entryLookup, he0] at h
    · simp [entryLookup, he0] at h
      cases he with
      | head => exact he0
      | tail _ htl => exact ih h e htl

theorem entryLookup_unique {α : Type} (k : String) (l : List (String × α)) (v : α)
    (hnd : (l.map Prod.fst).Nodup) (h : entryLookup k l = some v) :
    ∀ e ∈ l, e.fst = k → e = (k, v) := by
  induction l with
  | nil => intro e he; cases he
  | cons e0 es ih =>
    simp only [List.map, List.nodup_cons] at hnd
    intro e he hek
    by_cases he0 : e0.fst = k
    · simp [entryLookup, he0] at h
      cases he with
      | head =>
        obtain ⟨a, b⟩ := e0
        simp only at he0 h
        rw [he0, h]
      | tail _ htl =>
        exfalso
        apply hnd.1
        rw [he0, ← hek]
        exact List.mem_map_of_mem Prod.fst htl
    · simp [entryLookup, he0] at h
      cases he with
      | head => exact absurd hek he0
      | tail _ htl => exact ih hnd.2 h e htl hek

theorem mcnfStep_columns (fs : BoardDirFs) (name : String) (h : name = "columns") :
    mcnfStep fs name = some fs := by
  unfold mcnfStep
  rw [if_pos h]

theorem mcnfStep_missing (fs : BoardDirFs) (name : String) (hn : name ≠ "columns")
    (h : entryLookup name (fs.columnsDir.getD []) = none) :
    mcnfStep fs name = some fs := by
  unfold mcnfStep
  rw [if_neg hn]
  simp only []
  rw [h]

theorem mcnfStep_skip (fs : BoardDirFs) (name : String) (cd : ColumnDirFs)
    (hn : name ≠ "columns")
    (hlook : entryLookup name (fs.columnsDir.getD []) = some cd)
    (hs : mcnfStable cd) : mcnfStep fs name = some fs := by
  unfold mcnfStep
  rw [if_neg hn]
  simp only []
  rw [hlook]
  simp only []
  by_cases hm : cd.metadataYml.isSome
  · rw [if_pos hm]
  · rw [if_neg hm]
    rcases hs with h | h | ⟨data, hd, hp⟩
    · exact absurd h hm
    · rw [h]
    · rw [hd]
      simp only []
      rw [hp]

theorem mcnfGo_noop (names : List String) (fs : BoardDirFs)
    (h : ∀ e ∈ fs.columnsDir.getD [], e.fst = "columns" ∨ mcnfStable e.snd) :
    mcnfGo names fs = some fs := by
  induction names with
  | nil => rfl
  | cons name rest ih =>
    have hstep : mcnfStep fs name = some fs := by
      by_cases hn : name = "columns"
      · exact mcnfStep_columns fs name hn
      · cases hl : entryLookup name (fs.columnsDir.getD []) with
        | none => exact mcnfStep_missing fs name hn hl
        | some cd =>
          have hmem := entryLookup_some_mem _ _ _ hl
          rcases h _ hmem with hc | hstab
          · exact absurd hc hn
          · exact mcnfStep_skip fs name cd hn hl hstab
    unfold mcnfGo
    rw [hstep]
    exact ih

theorem mcnfGo_none (names : List String) : ∀ fs : BoardDirFs,
    fs.columnsDir = none → mcnfGo names fs = some fs := by
  intro fs h
  apply mcnfGo_noop
  rw [h]
  intro e he
  cases he

theorem any_of_entryLookup_some {α : Type} (k : String) (l : List (String × α))
    (v : α) (h : entryLookup k l = some v) :
    l.any (fun e => e.fst = k) = true := by
  induction l with
  | nil => cases h
  | cons e es ih =>
    by_cases he : e.fst = k
    · simp [List.any_cons, he]
    · simp [entryLookup, he] at h
      simp [List.any_cons, he, ih h]

theorem entryPut_eq_map_of_any {α : Type} (l : List (String × α)) (k : String)
    (v : α) (h : l.any (fun e => e.fst = k) = true) :
    entryPut l k v = l.map (fun e => if e.fst = k then (k, v) else e) := by
  unfold entryPut
  rw [if_pos h]

theorem keys_map_put {α : Type} (l : List (String × α)) (k : String) (v : α) :
    (l.map (fun e => if e.fst = k then (k, v) else e)).map Prod.fst
      = l.map Prod.fst := by
  induction l with
  | nil => rfl
  | cons e es ih =>
    by_cases he : e.fst = k
    · simp only [List.map, if_pos he, ih]
      simp [he]
    · simp only [List.map, if_neg he, ih]

theorem keys_renameEntry (l : List (String × ColumnDirFs)) (oldName newName : String) :
    (renameEntry l oldName newName).map Prod.fst
      = (l.map Prod.fst).map (fun s => if s = oldName then newName else s) := by
  induction l with
  | nil => rfl
  | cons e es ih =>
    unfold renameEntry at ih ⊢
    by_cases he : e.fst = oldName
    · simp only [List.map, if_pos he, ih]
      try simp [he]
    · simp only [List.map, if_neg he, ih]
      try simp [he]

theorem nodup_rename_keys (keys : List String) (oldName newName : String)
    (hnew : newName ∉ keys) (hnd : keys.Nodup) :
    (keys.map (fun s => if s = oldName then newName else s)).Nodup := by
  induction keys with
  | nil => simp
  | cons s ss ih =>
    simp only [List.nodup_cons] at hnd
    simp only [List.mem_cons, not_or] at hnew
    simp only [List.map, List.nodup_cons]
    refine ⟨?_, ih hnew.2 hnd.2⟩
    intro hmem
    obtain ⟨t, htmem, hteq⟩ := List.mem_map.mp hmem
    by_cases hs : s = oldName
    · rw [if_pos hs] at hteq
      by_cases ht : t = oldName
      · apply hnd.1
        have hst : s = t := hs.trans ht.symm
        rw [hst]
        exact htmem
      · rw [if_neg ht] at hteq
        exact hnew.2 (hteq ▸ htmem)
    · rw [if_neg hs] at hteq
      by_cases ht : t = oldName
      · rw [if_pos ht] at hteq
        exact hnew.1 hteq
      · rw [if_neg ht] at hteq
        exact hnd.1 (hteq ▸ htmem)

theorem not_mem_keys_of_lookup_none {α : Type} (k : String) (l : List (String × α))
    (h : entryLookup k l = none) : k ∉ l.map Prod.fst := by
  intro hmem
  obtain ⟨e, he, heq⟩ := List.mem_map.mp hmem
  exact entryLookup_none_not_key k l h e he heq

theorem any_rename_of_any (l : List (String × ColumnDirFs)) (oldName newName : String)
    (h : l.any (fun e => e.fst = oldName) = true) :
    (renameEntry l oldName newName).any (fun e => e.fst = newName) = true := by
  induction l with
  | nil => cases h
  | cons e es ih =>
    unfold renameEntry at ih ⊢
    by_cases he : e.fst = oldName
    · simp [List.map, if_pos he, List.any_cons]
    · simp only [List.map, if_neg he, List.any_cons] at h ⊢
      rcases Bool.or_eq_true_iff.mp h with h1 | h2
      · exact absurd (of_decide_eq_true h1) he
      · rw [ih h2]
        simp

/-- Complete case analysis of one format-migration step that returned
successfully: either it skipped (leaving the filesystem unchanged for one
of the four skip reasons), or it rewrote the column in place, or it
renamed the column to its slug and rewrote it. -/
theorem mcnfStep_cases (fs : BoardDirFs) (name : String) (fs1 : BoardDirFs)
    (hstep : mcnfStep fs name = some fs1) :
    (fs1 = fs ∧ (name = "columns"
        ∨ entryLookup name (fs.columnsDir.getD []) = none
        ∨ ∃ cd, entryLookup name (fs.columnsDir.getD []) = some cd ∧ mcnfStable cd))
    ∨ (∃ cd doc, entryLookup name (fs.columnsDir.getD []) = some cd
        ∧ Slug.generate name = name
        ∧ fs1.columnsDir = some (entryPut (fs.columnsDir.getD []) name
            { cd with metadataYml := some (some (mcnfMetadata doc)),
                      columnMd := some (mcnfContent doc name) }))
    ∨ (∃ cd doc, entryLookup name (fs.columnsDir.getD []) = some cd
        ∧ Slug.generate name ≠ name
        ∧ entryLookup (Slug.generate name) (fs.columnsDir.getD []) = none
        ∧ fs1.columnsDir = some (entryPut
            (renameEntry (fs.columnsDir.getD []) name (Slug.generate name))
            (Slug.generate name)
            { cd with metadataYml := some (some (mcnfMetadata doc)),
                      columnMd := some (mcnfContent doc name) })) := by
  unfold mcnfStep at hstep
  by_cases hn : name = "columns"
  · rw [if_pos hn] at hstep
    injection hstep with h
    exact Or.inl ⟨h.symm, Or.inl hn⟩
  · rw [if_neg hn] at hstep
    simp only [] at hstep
    cases hl : entryLookup name (fs.columnsDir.getD []) with
    | none =>
      rw [hl] at hstep
      injection hstep with h
      exact Or.inl ⟨h.symm, Or.inr (Or.inl rfl)⟩
    | some cd =>
      rw [hl] at hstep
      simp only [] at hstep
      by_cases hm : cd.metadataYml.isSome
      · rw [if_pos hm] at hstep
        injection hstep with h
        exact Or.inl ⟨h.symm, Or.inr (Or.inr ⟨cd, rfl, Or.inl hm⟩)⟩
      · rw [if_neg hm] at hstep
        cases hcm : cd.columnMd with
        | none =>
          rw [hcm] at hstep
          injection hstep with h
          exact Or.inl ⟨h.symm, Or.inr (Or.inr ⟨cd, rfl, Or.inr (Or.inl hcm)⟩)⟩
        | some data =>
          rw [hcm] at hstep
          simp only [] at hstep
          cases hp : Serialization.parseFrontmatter Serialization.yamlLineParse data with
          | none =>
            rw [hp] at hstep
            injection hstep with h
            exact Or.inl ⟨h.symm,
              Or.inr (Or.inr ⟨cd, rfl, Or.inr (Or.inr ⟨data, hcm, hp⟩)⟩)⟩
          | some doc =>
            rw [hp] at hstep
            simp only [] at hstep
            by_cases hs : Slug.generate name = name
            · rw [if_pos hs] at hstep
              injection hstep with h
              refine Or.inr (Or.inl ⟨cd, doc, rfl, hs, ?_⟩)
              rw [← h]
            · rw [if_neg hs] at hstep
              by_cases hfree :
                  (entryLookup (Slug.generate name) (fs.columnsDir.getD [])).isSome
              · rw [if_pos hfree] at hstep
                cases hstep
              · rw [if_neg hfree] at hstep
                injection hstep with h
                have hfr : entryLookup (Slug.generate name) (fs.columnsDir.getD [])
                    = none := by
                  cases hx : entryLookup (Slug.generate name) (fs.columnsDir.getD [])
                  · rfl
                  · rw [hx] at hfree
                    simp at hfree
                refine Or.inr (Or.inr ⟨cd, doc, rfl, hs, hfr, ?_⟩)
                rw [← h]

theorem mcnfStep_preserves (fs fs1 : BoardDirFs) (name : String)
    (rest : List String)
    (hstep : mcnfStep fs name = some fs1)
    (hnd : ((fs.columnsDir.getD []).map Prod.fst).Nodup)
    (hinv : mcnfInv (fs.columnsDir.getD []) (name :: rest)) :
    ((fs1.columnsDir.getD []).map Prod.fst).Nodup
    ∧ mcnfInv (fs1.columnsDir.getD []) rest := by
  rcases mcnfStep_cases fs name fs1 hstep with
    ⟨heq, hcase⟩ | ⟨cd, doc, hl, hs, hcol⟩ | ⟨cd, doc, hl, hs, hfr, hcol⟩
  · subst heq
    refine ⟨hnd, ?_⟩
    intro e he
    rcases hinv e he with hc | hm | hst
    · exact Or.inl hc
    · rcases List.mem_cons.mp hm with h1 | h2
      · rcases hcase with hnc | hnone | ⟨cd, hlk, hstab⟩
        · exact Or.inl (h1.trans hnc)
        · exact absurd h1 (entryLookup_none_not_key name _ hnone e he)
        · have := entryLookup_unique name _ cd hnd hlk e he h1
          refine Or.inr (Or.inr ?_)
          rw [this]
          exact hstab
      · exact Or.inr (Or.inl h2)
    · exact Or.inr (Or.inr hst)
  · have hany := any_of_entryLookup_some name _ cd hl
    have hput := entryPut_eq_map_of_any (fs.columnsDir.getD []) name
      { cd with metadataYml := some (some (mcnfMetadata doc)),
                columnMd := some (mcnfContent doc name) } hany
    constructor
    · rw [hcol]
      simp only [Option.getD_some]
      rw [hput, keys_map_put]
      exact hnd
    · intro e he
      rw [hcol] at he
      simp only [Option.getD_some] at he
      rw [hput] at he
      obtain ⟨e0, he0, heq⟩ := List.mem_map.mp he
      by_cases h0 : e0.fst = name
      · rw [if_pos h0] at heq
        refine Or.inr (Or.inr ?_)
        rw [← heq]
        exact Or.inl rfl
      · rw [if_neg h0] at heq
        subst heq
        rcases hinv e0 he0 with hc | hm | hst
        · exact Or.inl hc
        · rcases List.mem_cons.mp hm with h1 | h2
          · exact absurd h1 h0
          · exact Or.inr (Or.inl h2)
        · exact Or.inr (Or.inr hst)
  · have hanyren := any_rename_of_any (fs.columnsDir.getD []) name
      (Slug.generate name) (any_of_entryLookup_some name _ cd hl)
    have hput := entryPut_eq_map_of_any
      (renameEntry (fs.columnsDir.getD []) name (Slug.generate name))
      (Slug.generate name)
      { cd with metadataYml := some (some (mcnfMetadata doc)),
                columnMd := some (mcnfContent doc name) } hanyren
    constructor
    · rw [hcol]
      simp only [Option.getD_some]
      rw [hput, keys_map_put, keys_renameEntry]
      exact nodup_rename_keys _ name (Slug.generate name)
        (not_mem_keys_of_lookup_none _ _ hfr) hnd
    · intro e he
      rw [hcol] at he
      simp only [Option.getD_some] at he
      rw [hput] at he
      obtain ⟨e1, he1, heq1⟩ := List.mem_map.mp he
      obtain ⟨e0, he0, heq0⟩ := List.mem_map.mp he1
      by_cases h0 : e0.fst = name
      · rw [if_pos h0] at heq0
        rw [← heq0] at heq1
        simp only [if_pos rfl] at heq1
        refine Or.inr (Or.inr ?_)
        rw [← heq1]
        exact Or.inl rfl
      · rw [if_neg h0] at heq0
        rw [← heq0] at heq1
        have h0slug : e0.fst ≠ Slug.generate name :=
          entryLookup_none_not_key (Slug.generate name) _ hfr e0 he0
        rw [if_neg h0slug] at heq1
        rw [← heq1]
        rcases hinv e0 he0 with hc | hm | hst
        · exact Or.inl hc
        · rcases List.mem_cons.mp hm with h1 | h2
          · exact absurd h1 h0
          · exact Or.inr (Or.inl h2)
        · exact Or.inr (Or.inr hst)

theorem mcnfGo_postcondition (names : List String) : ∀ (fs fs' : BoardDirFs),
    mcnfGo names fs = some fs' →
    ((fs.columnsDir.getD []).map Prod.fst).Nodup →
    mcnfInv (fs.columnsDir.getD []) names →
    ∀ e ∈ fs'.columnsDir.getD [], e.fst = "columns" ∨ mcnfStable e.snd := by
  induction names with
  | nil =>
    intro fs fs' h hnd hinv
    injection h with h
    subst h
    intro e he
    rcases hinv e he with hc | hm | hst
    · exact Or.inl hc
    · cases hm
    · exact Or.inr hst
  | cons name rest ih =>
    intro fs fs' h hnd hinv
    unfold mcnfGo at h
    cases hs : mcnfStep fs name with
    | none =>
      rw [hs] at h
      cases h
    | some fs1 =>
      rw [hs] at h
      obtain ⟨hnd1, hinv1⟩ := mcnfStep_preserves fs fs1 name rest hs hnd hinv
      exact ih fs1 fs' h hnd1 hinv1

theorem migrateColumnsToNewFormat_idem (fs fs' : BoardDirFs)
    (hnd : ((fs.columnsDir.getD []).map Prod.fst).Nodup)
    (h : migrateColumnsToNewFormat fs = some fs') :
    migrateColumnsToNewFormat fs' = some fs' := by
  unfold migrateColumnsToNewFormat at h ⊢
  cases hc : fs.columnsDir with
  | some entries =>
    rw [hc] at h
    have hinv0 : mcnfInv (fs.columnsDir.getD []) (entries.map (fun e => e.fst)) := by
      intro e he
      rw [hc] at he
      simp only [Option.getD_some] at he
      exact Or.inr (Or.inl (List.mem_map_of_mem _ he))
    have hpost := mcnfGo_postcondition (entries.map (fun e => e.fst)) fs fs' h hnd hinv0
    cases hc' : fs'.columnsDir with
    | some entries' => exact mcnfGo_noop _ fs' hpost
    | none => exact mcnfGo_noop _ fs' hpost
  | none =>
    rw [hc] at h
    have hfs : mcnfGo (fs.legacyCols.map (fun e => e.fst)) fs = some fs :=
      mcnfGo_none _ fs hc
    rw [hfs] at h
    injection h with h
    subst h
    cases hc' : fs.columnsDir with
    | some entries' =>
      rw [hc] at hc'
      cases hc'
    | none => exact mcnfGo_none _ fs hc

/-- C6: each of the three migration operations is idempotent — running it
twice in a row yields the same on-disk state as running it once, and
running it on an already-migrated board succeeds as a no-op: the two
directory-promotion operations are total and idempotent, and a successful
run of the front-matter rewrite (over a directory listing, whose names are
distinct) is a fixed point of a second run, which succeeds. -/
theorem c6_migrations_idempotent :
    (∀ fs : BoardDirFs,
      migrateColumnsToSubdirectory (migrateColumnsToSubdirectory fs)
        = migrateColumnsToSubdirectory fs)
    ∧ (∀ fs : BoardDirFs,
      migrateTasksToSubdirectory (migrateTasksToSubdirectory fs)
        = migrateTasksToSubdirectory fs)
    ∧ (∀ fs fs' : BoardDirFs,
      ((fs.columnsDir.getD []).map Prod.fst).Nodup →
      migrateColumnsToNewFormat fs = some fs' →
      migrateColumnsToNewFormat fs' = some fs') :=
  ⟨migrateColumnsToSubdirectory_idem, migrateTasksToSubdirectory_idem,
    fun fs fs' hnd h => migrateColumnsToNewFormat_idem fs fs' hnd h⟩

/-- Witness for C6 at concrete board directories. -/
theorem c6_migrations_idempotent_witness :
    migrateColumnsToSubdirectory (migrateColumnsToSubdirectory c6LegacyFs)
      = migrateColumnsToSubdirectory c6LegacyFs
    ∧ migrateTasksToSubdirectory (migrateTasksToSubdirectory c6LegacyFs)
      = migrateTasksToSubdirectory c6LegacyFs
    ∧ migrateColumnsToNewFormat ((migrateColumnsToNewFormat c5Fs).getD c5Fs)
      = some ((migrateColumnsToNewFormat c5Fs).getD c5Fs) :=
  ⟨c6_migrations_idempotent.1 c6LegacyFs,
    c6_migrations_idempotent.2.1 c6LegacyFs,
    c6_migrations_idempotent.2.2 c5Fs ((migrateColumnsToNewFormat c5Fs).getD c5Fs)
      (by decide) (by rfl)⟩
end Repo

/-! ## Claim C1 -/
@[simp] theorem priority_toStr_ne_empty (p : VO.Priority) :
    ¬ (VO.Priority.toStr p = "") := by
  cases p <;> decide

@[simp] theorem parsePriority_toStr (p : VO.Priority) :
    VO.parsePriority (VO.Priority.toStr p) = some p := by
  cases p <;> rfl

@[simp] theorem status_toStr_ne_empty (s : VO.Status) :
    ¬ (VO.Status.toStr s = "") := by
  cases s <;> decide

@[simp] theorem parseStatus_toStr (s : VO.Status) :
    VO.parseStatus (VO.Status.toStr s) = some s := by
  cases s <;> rfl

theorem addTag_not_mem (t : Entity.Task) (tag : String) (now : Nat)
    (h : tag ∉ t.tags) (hm : t.modifiedAt = now) :
    t.addTag tag now = { t with tags := t.tags ++ [tag] } := by
  simp [Entity.Task.addTag, h, ← hm]

theorem addTags_spec (tags : List String) : ∀ (t : Entity.Task) (now : Nat),
    t.modifiedAt = now → (t.tags ++ tags).Nodup →
    Mapper.addTags t tags now = { t with tags := t.tags ++ tags } := by
  induction tags with
  | nil => intro t now _ _; simp [Mapper.addTags]
  | cons tag rest ih =>
    intro t now hm hnd
    have htag : tag ∉ t.tags := by
      rw [List.nodup_append] at hnd
      exact fun hmem => hnd.2.2 hmem (by simp)
    have step : t.addTag tag now = { t with tags := t.tags ++ [tag] } :=
      addTag_not_mem t tag now htag hm
    have : Mapper.addTags t (tag :: rest) now
        = Mapper.addTags (t.addTag tag now) rest now := rfl
    rw [this, step, ih { t with tags := t.tags ++ [tag] } now hm
      (by simpa using hnd)]
    simp

/-- C1 counterexample: loading the saved form of a task does not restore
its completed date (dropped entirely) nor its creation instant (re-stamped
with the load time), contradicting the claimed full round trip of the
created, modified and completed-date fields. -/
theorem c1_roundtrip_counterexample :
    c1Task.completedDate = some 5
    ∧ c1Task.createdAt = 0
    ∧ (Mapper.taskFromStorage
        ⟨(Mapper.taskToStorage c1Task).1, (Mapper.taskToStorage c1Task).2⟩
        c1Task.id 9).map Entity.Task.completedDate = some none
    ∧ (Mapper.taskFromStorage
        ⟨(Mapper.taskToStorage c1Task).1, (Mapper.taskToStorage c1Task).2⟩
        c1Task.id 9).map Entity.Task.createdAt = some 9 := by
  decide

/-- C1 amended: the mapper-level round trip restores the identifier,
title, description, priority, status and tag list of a valid task (title
nonempty, tags deduplicated); the created and modified instants are
re-stamped with the load time, the completed date is left unset, and the
due date survives only when it is not before the load time. -/
theorem c1_roundtrip_amended (t : Entity.Task) (now : Nat)
    (htitle : t.title ≠ "") (hnodup : t.tags.Nodup) :
    ∃ u, Mapper.taskFromStorage
        ⟨(Mapper.taskToStorage t).1, (Mapper.taskToStorage t).2⟩ t.id now = some u
      ∧ u.id = t.id
      ∧ u.title = t.title
      ∧ u.description = t.description
      ∧ u.priority = t.priority
      ∧ u.status = t.status
      ∧ u.tags = t.tags
      ∧ u.createdAt = now
      ∧ u.modifiedAt = now
      ∧ u.completedDate = none
      ∧ u.dueDate = (match t.dueDate with
          | some d => if d < now then none else some d
          | none => none) := by
  obtain ⟨id, title, description, priority, status, tags, createdAt,
    modifiedAt, dueDate, completedDate⟩ := t
  simp only at htitle hnodup
  cases dueDate with
  | none =>
    cases completedDate with
    | none =>
      cases tags with
      | nil =>
        simp [Mapper.taskToStorage, Mapper.taskFromStorage,
          Serialization.FrontmatterDocument.getString,
          Serialization.FrontmatterDocument.getStringSlice,
          entryLookup, htitle, Entity.newTask, Mapper.addTags]
      | cons tag rest =>
        simp [Mapper.taskToStorage, Mapper.taskFromStorage,
          Serialization.FrontmatterDocument.getString,
          Serialization.FrontmatterDocument.getStringSlice,
          entryLookup, htitle, Entity.newTask]
        rw [addTags_spec (tag :: rest) _ now rfl (by simpa using hnodup)]
        simp
    | some cd =>
      cases tags with
      | nil =>
        simp [Mapper.taskToStorage, Mapper.taskFromStorage,
          Serialization.FrontmatterDocument.getString,
          Serialization.FrontmatterDocument.getStringSlice,
          entryLookup, htitle, Entity.newTask, Mapper.addTags]
      | cons tag rest =>
        simp [Mapper.taskToStorage, Mapper.taskFromStorage,
          Serialization.FrontmatterDocument.getString,
          Serialization.FrontmatterDocument.getStringSlice,
          entryLookup, htitle, Entity.newTask]
        rw [addTags_spec (tag :: rest) _ now rfl (by simpa using hnodup)]
        simp
  | some d =>
    cases completedDate with
    | none =>
      cases tags with
      | nil =>
        by_cases hd : d < now <;>
          simp [Mapper.taskToStorage, Mapper.taskFromStorage,
            Serialization.FrontmatterDocument.getString,
            Serialization.FrontmatterDocument.getStringSlice,
            entryLookup, htitle, Entity.newTask, Mapper.addTags, ne_eq,
            Mapper.formatRFC3339_ne_empty,
            Mapper.parseRFC3339_formatRFC3339, Entity.Task.setDueDate, hd]
      | cons tag rest =>
        by_cases hd : d < now
        all_goals
          simp [Mapper.taskToStorage, Mapper.taskFromStorage,
            Serialization.FrontmatterDocument.getString,
            Serialization.FrontmatterDocument.getStringSlice,
            entryLookup, htitle, Entity.newTask, ne_eq,
            Mapper.formatRFC3339_ne_empty,
            Mapper.parseRFC3339_formatRFC3339, Entity.Task.setDueDate, hd]
        all_goals
          rw [addTags_spec (tag :: rest) _ now rfl (by simpa using hnodup)]
        all_goals simp
    | some cd =>
      cases tags with
      | nil =>
        by_cases hd : d < now <;>
          simp [Mapper.taskToStorage, Mapper.taskFromStorage,
            Serialization.FrontmatterDocument.getString,
            Serialization.FrontmatterDocument.getStringSlice,
            entryLookup, htitle, Entity.newTask, Mapper.addTags, ne_eq,
            Mapper.formatRFC3339_ne_empty,
            Mapper.parseRFC3339_formatRFC3339, Entity.Task.setDueDate, hd]
      | cons tag rest =>
        by_cases hd : d < now
        all_goals
          simp [Mapper.taskToStorage, Mapper.taskFromStorage,
            Serialization.FrontmatterDocument.getString,
            Serialization.FrontmatterDocument.getStringSlice,
            entryLookup, htitle, Entity.newTask, ne_eq,
            Mapper.formatRFC3339_ne_empty,
            Mapper.parseRFC3339_formatRFC3339, Entity.Task.setDueDate, hd]
        all_goals
          rw [addTags_spec (tag :: rest) _ now rfl (by simpa using hnodup)]
        all_goals simp

/-- Witness for the amended C1 at a concrete task and load instant. -/
theorem c1_roundtrip_amended_witness :
    ∃ u, Mapper.taskFromStorage
        ⟨(Mapper.taskToStorage
            { id := ⟨"T", 1, "a"⟩, title := "t", description := "body",
              priority := VO.Priority.high, status := VO.Status.done,
              tags := ["urgent"], createdAt := 0, modifiedAt := 0,
              dueDate := some 20, completedDate := some 5 }).1,
          (Mapper.taskToStorage
            { id := ⟨"T", 1, "a"⟩, title := "t", description := "body",
              priority := VO.Priority.high, status := VO.Status.done,
              tags := ["urgent"], createdAt := 0, modifiedAt := 0,
              dueDate := some 20, completedDate := some 5 }).2⟩
        (⟨"T", 1, "a"⟩ : VO.TaskID) 9 = some u
      ∧ u.id = (⟨"T", 1, "a"⟩ : VO.TaskID)
      ∧ u.title = "t"
      ∧ u.description = "body"
      ∧ u.priority = VO.Priority.high
      ∧ u.status = VO.Status.done
      ∧ u.tags = ["urgent"]
      ∧ u.createdAt = 9
      ∧ u.modifiedAt = 9
      ∧ u.completedDate = none
      ∧ u.dueDate = (match (some 20 : Option Nat) with
          | some d => if d < 9 then none else some d
          | none => none) :=
  c1_roundtrip_amended
    { id := ⟨"T", 1, "a"⟩, title := "t", description := "body",
      priority := VO.Priority.high, status := VO.Status.done,
      tags := ["urgent"], createdAt := 0, modifiedAt := 0,
      dueDate := some 20, completedDate := some 5 } 9
    (by decide) (by decide)

theorem updateStatus_completedDate_some (t : Entity.Task) (s : VO.Status)
    (n d : Nat) (h : t.completedDate = some d) :
    (t.updateStatus s n).completedDate = some d := by
  simp [Entity.Task.updateStatus, h]

theorem applyStatusUpdates_completedDate_some (us : List (VO.Status × Nat)) :
    ∀ (t : Entity.Task) (d : Nat), t.completedDate = some d →
    (applyStatusUpdates t us).completedDate = some d := by
  induction us with
  | nil => intro t d h; exact h
  | cons u rest ih =>
    intro t d h
    obtain ⟨s, n⟩ := u
    exact ih _ d (updateStatus_completedDate_some t s n d h)

/-- C9: starting from a task whose completed date is unset, any sequence
of status updates leaves the completed date equal to the instant of the
first update to done (unset if there is none): it is set exactly at the
first update to done and never cleared or changed by later updates,
including moves away from done and returns to done; and once set, no
status update ever alters it. -/
theorem c9_completed_date_set_once_never_cleared :
    (∀ (t : Entity.Task) (us : List (VO.Status × Nat)),
      t.completedDate = none →
      (applyStatusUpdates t us).completedDate = firstDoneTime us)
    ∧ (∀ (t : Entity.Task) (us : List (VO.Status × Nat)) (d : Nat),
      t.completedDate = some d →
      (applyStatusUpdates t us).completedDate = some d) := by
  constructor
  · intro t us
    induction us generalizing t with
    | nil => intro h; exact h
    | cons u rest ih =>
      intro h
      obtain ⟨s, n⟩ := u
      by_cases hs : s = VO.Status.done
      · subst hs
        have hset : (t.updateStatus VO.Status.done n).completedDate = some n := by
          simp [Entity.Task.updateStatus, h]
        simp only [applyStatusUpdates, firstDoneTime, if_pos rfl]
        exact applyStatusUpdates_completedDate_some rest _ n hset
      · have hkeep : (t.updateStatus s n).completedDate = none := by
          simp [Entity.Task.updateStatus, h, hs]
        simp only [applyStatusUpdates, firstDoneTime, if_neg hs]
        exact ih _ hkeep
  · intro t us d h
    exact applyStatusUpdates_completedDate_some us t d h

/-- Witness for C9 at a concrete task and update sequence. -/
theorem c9_completed_date_witness :
    (applyStatusUpdates
      { id := ⟨"T", 1, "a"⟩, title := "t", description := "",
        priority := VO.Priority.noPriority, status := VO.Status.todo,
        tags := [], createdAt := 0, modifiedAt := 0,
        dueDate := none, completedDate := none }
      [(VO.Status.inProgress, 1), (VO.Status.done, 2),
       (VO.Status.todo, 3), (VO.Status.done, 4)]).completedDate
      = firstDoneTime [(VO.Status.inProgress, 1), (VO.Status.done, 2),
          (VO.Status.todo, 3), (VO.Status.done, 4)]
    ∧ (applyStatusUpdates
      { id := ⟨"T", 1, "a"⟩, title := "t", description := "",
        priority := VO.Priority.noPriority, status := VO.Status.done,
        tags := [], createdAt := 0, modifiedAt := 0,
        dueDate := none, completedDate := some 7 }
      [(VO.Status.todo, 8), (VO.Status.done, 9)]).completedDate = some 7 :=
  ⟨c9_completed_date_set_once_never_cleared.1 _
      [(VO.Status.inProgress, 1), (VO.Status.done, 2),
       (VO.Status.todo, 3), (VO.Status.done, 4)] rfl,
    c9_completed_date_set_once_never_cleared.2 _
      [(VO.Status.todo, 8), (VO.Status.done, 9)] 7 rfl⟩

end MKanban
